import Mathlib

/-!
Verification development for the proof-chat-editor translation pipeline.

The JavaScript core (sentence classifier, entity extractor, proof-tree
builder, Lean-skeleton generator) is shallowly embedded here: each source
function becomes an executable Lean definition over `List Char` / `String`,
with JavaScript regular-expression tests re-expressed through a small
pattern-matching engine (`P`, `matchP`, `searchPAux`) that implements the
word-boundary (`\b`), whitespace (`\s+`/`\s*`), digit (`\d+`) and literal
constructs used by the source patterns.  JavaScript `Map`/`Set` values are
modelled as insertion-ordered association lists / duplicate-free lists,
which matches their iteration-order semantics.  ASCII case folding models
`toLowerCase` (all inputs exercised by the source patterns are ASCII).
-/

namespace ProofChat

set_option maxRecDepth 16000

/-- ASCII lower-casing of one character, modelling `toLowerCase` on the
ASCII fragment actually used by the source's patterns. -/
def asciiLower (c : Char) : Char :=
  if 'A' ≤ c ∧ c ≤ 'Z' then Char.ofNat (c.toNat + 32) else c

/-- Lower-case a character list. -/
def lowerL (l : List Char) : List Char := l.map asciiLower

/-- Trim leading and trailing whitespace, modelling `String.prototype.trim`. -/
def trimL (l : List Char) : List Char :=
  ((l.dropWhile Char.isWhitespace).reverse.dropWhile Char.isWhitespace).reverse

/-- `trim` on strings. -/
def trimS (s : String) : String := ⟨trimL s.data⟩

/-- JavaScript `\w`: ASCII letters, digits and underscore. -/
def isWordChar (c : Char) : Bool := c.isAlphanum || c == '_'

/-- Whether an optional character is a word character (`none` = string edge). -/
def optIsWord : Option Char → Bool
  | some c => isWordChar c
  | none => false

/-- Prefix test on character lists (pattern first). -/
def startsWithL : List Char → List Char → Bool
  | [], _ => true
  | _ :: _, [] => false
  | p :: ps, c :: cs => p == c && startsWithL ps cs

/-- Substring containment on character lists, modelling `String.prototype.includes`. -/
def containsL : List Char → List Char → Bool
  | [], pat => startsWithL pat []
  | c :: rest, pat => startsWithL pat (c :: rest) || containsL rest pat

/-- Characters a JavaScript `.` (no `s` flag) does not match. -/
def isLineBreak (c : Char) : Bool := c == '\n' || c == '\r'

/-- The maximal `.`-matchable prefix (used to model `.*` in patterns). -/
def lineTake (l : List Char) : List Char := l.takeWhile (fun c => !isLineBreak c)

/-- Pattern atoms for the fragment of JavaScript regexes used by the source:
literals, case-insensitive literals, `\s+`, `\s*`, `\b`, `\d+`, `\w+`,
optional single characters / character classes, single-character classes,
and the `(?=\s|$)` lookahead. -/
inductive P where
  | lit : String → P
  | litCI : String → P
  | ws : P
  | wsOpt : P
  | wb : P
  | digits : P
  | word : P
  | opt : Char → P
  | optCls : (Char → Bool) → P
  | cls : (Char → Bool) → P
  | wsOrEnd : P

/-- Consume an exact literal; returns the new previous-character and rest. -/
def stripLit : List Char → Option Char → List Char → Option (Option Char × List Char)
  | [], prev, cs => some (prev, cs)
  | p :: ps, _, c :: cs => if p == c then stripLit ps (some c) cs else none
  | _ :: _, _, [] => none

/-- Consume a literal case-insensitively (pattern written in lower case). -/
def stripLitCI : List Char → Option Char → List Char → Option (Option Char × List Char)
  | [], prev, cs => some (prev, cs)
  | p :: ps, _, c :: cs => if p == asciiLower c then stripLitCI ps (some c) cs else none
  | _ :: _, _, [] => none

/-- Greedily consume characters satisfying `f`. -/
def dropCls (f : Char → Bool) : Option Char → List Char → Option Char × List Char
  | prev, [] => (prev, [])
  | prev, c :: cs => if f c then dropCls f (some c) cs else (prev, c :: cs)

/-- Match a pattern list at the current position.  Returns the character
preceding the remainder and the remainder itself on success.  Greedy
repetition without backtracking is used; every source pattern embedded here
has repetition followed by a disjoint character class, for which greedy
matching coincides with the backtracking semantics. -/
def matchP : List P → Option Char → List Char → Option (Option Char × List Char)
  | [], prev, cs => some (prev, cs)
  | .lit s :: ps, prev, cs =>
      match stripLit s.data prev cs with
      | some (p', cs') => matchP ps p' cs'
      | none => none
  | .litCI s :: ps, prev, cs =>
      match stripLitCI s.data prev cs with
      | some (p', cs') => matchP ps p' cs'
      | none => none
  | .ws :: ps, prev, cs =>
      match cs with
      | c :: cs' =>
          if c.isWhitespace then
            let r := dropCls Char.isWhitespace (some c) cs'
            matchP ps r.1 r.2
          else none
      | [] => none
  | .wsOpt :: ps, prev, cs =>
      let r := dropCls Char.isWhitespace prev cs
      matchP ps r.1 r.2
  | .wb :: ps, prev, cs =>
      if optIsWord prev != optIsWord cs.head? then matchP ps prev cs else none
  | .digits :: ps, prev, cs =>
      match cs with
      | c :: cs' =>
          if c.isDigit then
            let r := dropCls Char.isDigit (some c) cs'
            matchP ps r.1 r.2
          else none
      | [] => none
  | .word :: ps, prev, cs =>
      match cs with
      | c :: cs' =>
          if isWordChar c then
            let r := dropCls isWordChar (some c) cs'
            matchP ps r.1 r.2
          else none
      | [] => none
  | .opt ch :: ps, prev, cs =>
      match cs with
      | c :: cs' => if c == ch then matchP ps (some c) cs' else matchP ps prev (c :: cs')
      | [] => matchP ps prev []
  | .optCls f :: ps, prev, cs =>
      match cs with
      | c :: cs' => if f c then matchP ps (some c) cs' else matchP ps prev (c :: cs')
      | [] => matchP ps prev []
  | .cls f :: ps, prev, cs =>
      match cs with
      | c :: cs' => if f c then matchP ps (some c) cs' else none
      | [] => none
  | .wsOrEnd :: ps, prev, cs =>
      match cs with
      | c :: _ => if c.isWhitespace then matchP ps prev cs else none
      | [] => matchP ps prev []

/-- Search for a match of `ps` at any position (`RegExp.prototype.test`). -/
def searchPAux (ps : List P) : Option Char → List Char → Bool
  | prev, [] => (matchP ps prev []).isSome
  | prev, c :: cs => (matchP ps prev (c :: cs)).isSome || searchPAux ps (some c) cs

/-- Unanchored test, starting at the string edge. -/
def reTest (ps : List P) (l : List Char) : Bool := searchPAux ps none l

/-- Test of several alternatives (regex alternation at the top level). -/
def reTestAlts (alts : List (List P)) (l : List Char) : Bool :=
  alts.any (fun ps => reTest ps l)

/-- Anchored test (`^...`). -/
def reTestStart (ps : List P) (l : List Char) : Bool := (matchP ps none l).isSome

/-- Search with a continuation, used to model capture groups and `.*`
tails: at each position, if the prefix pattern matches, the continuation
inspects the remainder; on failure the search advances one character. -/
def searchK (ps : List P) (k : Option Char → List Char → Option α) :
    Option Char → List Char → Option α
  | prev, [] =>
      match matchP ps prev [] with
      | some (p', r) => k p' r
      | none => none
  | prev, c :: cs =>
      match matchP ps prev (c :: cs) with
      | some (p', r) =>
          match k p' r with
          | some a => some a
          | none => searchK ps k (some c) cs
      | none => searchK ps k (some c) cs

/-- First alternative matching at the current position. -/
def tryAlts (alts : List (List P)) (prev : Option Char) (cs : List Char) :
    Option (Option Char × List Char) :=
  match alts with
  | [] => none
  | ps :: rest =>
      match matchP ps prev cs with
      | some r => some r
      | none => tryAlts rest prev cs

/-- Fuelled global scan collecting the full text of every (non-overlapping,
leftmost-first) match, modelling `String.prototype.matchAll` with `/g`. -/
def scanAllAux (alts : List (List P)) : Nat → Option Char → List Char → List (List Char)
  | 0, _, _ => []
  | fuel + 1, prev, cs =>
      match tryAlts alts prev cs with
      | some (p', rest) =>
          if rest.length < cs.length then
            cs.take (cs.length - rest.length) :: scanAllAux alts fuel p' rest
          else
            match cs with
            | [] => []
            | c :: cs' => scanAllAux alts fuel (some c) cs'
      | none =>
          match cs with
          | [] => []
          | c :: cs' => scanAllAux alts fuel (some c) cs'

/-- Global scan over a whole character list. -/
def scanAll (alts : List (List P)) (l : List Char) : List (List Char) :=
  scanAllAux alts (l.length + 1) none l

/-! ## Sentence classifier (`src/nlp/tokenizer.js`) -/

/-- A classified sentence `{ type, text }`. -/
structure Sentence where
  type : String
  text : String
deriving DecidableEq, Repr

/-- Rule 1 trigger: `\b(by|using|via)\s+induction(\s+on)?`,
`\bprove\s+by\s+induction`, `\binductive\s+(step|case|hypothesis)`. -/
def inductionRule (lower : List Char) : Bool :=
  reTestAlts [[.wb, .lit "by", .ws, .lit "induction"],
              [.wb, .lit "using", .ws, .lit "induction"],
              [.wb, .lit "via", .ws, .lit "induction"]] lower ||
  reTest [.wb, .lit "prove", .ws, .lit "by", .ws, .lit "induction"] lower ||
  reTestAlts [[.wb, .lit "inductive", .ws, .lit "step"],
              [.wb, .lit "inductive", .ws, .lit "case"],
              [.wb, .lit "inductive", .ws, .lit "hypothesis"]] lower

/-- Rule 2 trigger: `\b(suppose|assume)\s+(not|that.*not)`,
`\b(contradiction|contradicts|absurd)`, `\blead(s)?\s+to\s+a\s+contradiction`. -/
def contradictionRule (lower : List Char) : Bool :=
  reTestAlts [[.wb, .lit "suppose", .ws, .lit "not"],
              [.wb, .lit "assume", .ws, .lit "not"]] lower ||
  (searchK [.wb, .lit "suppose", .ws, .lit "that"]
      (fun _ rest => if containsL (lineTake rest) "not".data then some () else none)
      none lower).isSome ||
  (searchK [.wb, .lit "assume", .ws, .lit "that"]
      (fun _ rest => if containsL (lineTake rest) "not".data then some () else none)
      none lower).isSome ||
  reTestAlts [[.wb, .lit "contradiction"], [.wb, .lit "contradicts"],
              [.wb, .lit "absurd"]] lower ||
  reTest [.wb, .lit "lead", .opt 's', .ws, .lit "to", .ws, .lit "a", .ws,
          .lit "contradiction"] lower

/-- Rule 3 trigger: `\b(consider|examine)\s+the\s+case`, `\bcase\s+\d+`,
`\bin\s+the\s+case\s+(where|when)`, `\b(first|second|next)\s+case`. -/
def caseRule (lower : List Char) : Bool :=
  reTestAlts [[.wb, .lit "consider", .ws, .lit "the", .ws, .lit "case"],
              [.wb, .lit "examine", .ws, .lit "the", .ws, .lit "case"]] lower ||
  reTest [.wb, .lit "case", .ws, .digits] lower ||
  reTestAlts [[.wb, .lit "in", .ws, .lit "the", .ws, .lit "case", .ws, .lit "where"],
              [.wb, .lit "in", .ws, .lit "the", .ws, .lit "case", .ws, .lit "when"]] lower ||
  reTestAlts [[.wb, .lit "first", .ws, .lit "case"],
              [.wb, .lit "second", .ws, .lit "case"],
              [.wb, .lit "next", .ws, .lit "case"]] lower

/-- Rule 4 trigger: `\bby\s+definition(\s+of)?`, `\bdefinition\s+of`,
`\bsimplif(y|ying|ies)`, `\bexpand(ing)?\s+(the|this)`, `\bsubstitut(e|ing)`. -/
def definitionRule (lower : List Char) : Bool :=
  reTest [.wb, .lit "by", .ws, .lit "definition"] lower ||
  reTest [.wb, .lit "definition", .ws, .lit "of"] lower ||
  reTestAlts [[.wb, .lit "simplify"], [.wb, .lit "simplifying"],
              [.wb, .lit "simplifies"]] lower ||
  reTestAlts [[.wb, .lit "expanding", .ws, .lit "the"],
              [.wb, .lit "expanding", .ws, .lit "this"],
              [.wb, .lit "expand", .ws, .lit "the"],
              [.wb, .lit "expand", .ws, .lit "this"]] lower ||
  reTestAlts [[.wb, .lit "substitute"], [.wb, .lit "substituting"]] lower

/-- Rule 5 trigger: `\bthere\s+exists?`, `\bfor\s+some`, `\bwe\s+can\s+find`,
`\bchoose`, or the symbol `∃` in the raw text. -/
def existentialRule (lower text : List Char) : Bool :=
  reTest [.wb, .lit "there", .ws, .lit "exist", .opt 's'] lower ||
  reTest [.wb, .lit "for", .ws, .lit "some"] lower ||
  reTest [.wb, .lit "we", .ws, .lit "can", .ws, .lit "find"] lower ||
  reTest [.wb, .lit "choose"] lower ||
  text.any (· == '∃')

/-- Rule 6 trigger: `\bfor\s+(all|every|each|any)`,
`\bevery\s+\w+\s+(is|has|satisfies)`, or `∀`. -/
def universalRule (lower text : List Char) : Bool :=
  reTestAlts [[.wb, .lit "for", .ws, .lit "all"],
              [.wb, .lit "for", .ws, .lit "every"],
              [.wb, .lit "for", .ws, .lit "each"],
              [.wb, .lit "for", .ws, .lit "any"]] lower ||
  reTestAlts [[.wb, .lit "every", .ws, .word, .ws, .lit "is"],
              [.wb, .lit "every", .ws, .word, .ws, .lit "has"],
              [.wb, .lit "every", .ws, .word, .ws, .lit "satisfies"]] lower ||
  text.any (· == '∀')

/-- Rule 7 trigger: `\bif\b.*\bthen\b`, `\bwhenever\b.*\b(then|we have)`,
`\bimplies?\b`, or an implication arrow in the raw text. -/
def implicationRule (lower text : List Char) : Bool :=
  (searchK [.wb, .lit "if", .wb]
      (fun p' rest =>
        if searchPAux [.wb, .lit "then", .wb] p' (lineTake rest) then some () else none)
      none lower).isSome ||
  (searchK [.wb, .lit "whenever", .wb]
      (fun p' rest =>
        if searchPAux [.wb, .lit "then"] p' (lineTake rest) ||
           searchPAux [.wb, .lit "we have"] p' (lineTake rest) then some () else none)
      none lower).isSome ||
  reTest [.wb, .lit "implie", .opt 's', .wb] lower ||
  text.any (fun c => c == '→' || c == '⇒' || c == '⟹')

/-- Rule 8 trigger: `^(assume|suppose|let|given)\b`, `\bwe\s+(assume|suppose|let)`. -/
def assumptionRule (lower : List Char) : Bool :=
  reTestStart [.lit "assume", .wb] lower ||
  reTestStart [.lit "suppose", .wb] lower ||
  reTestStart [.lit "let", .wb] lower ||
  reTestStart [.lit "given", .wb] lower ||
  reTestAlts [[.wb, .lit "we", .ws, .lit "assume"],
              [.wb, .lit "we", .ws, .lit "suppose"],
              [.wb, .lit "we", .ws, .lit "let"]] lower

/-- Rule 9 trigger: `^(then|thus|so|hence)\b`,
`\bwe\s+(have|get|obtain|derive|see|find|conclude)`,
`\bthis\s+(gives|yields|shows|implies)`, `\bit\s+follows\s+that`. -/
def stepRule (lower : List Char) : Bool :=
  reTestStart [.lit "then", .wb] lower ||
  reTestStart [.lit "thus", .wb] lower ||
  reTestStart [.lit "so", .wb] lower ||
  reTestStart [.lit "hence", .wb] lower ||
  reTestAlts [[.wb, .lit "we", .ws, .lit "have"],
              [.wb, .lit "we", .ws, .lit "get"],
              [.wb, .lit "we", .ws, .lit "obtain"],
              [.wb, .lit "we", .ws, .lit "derive"],
              [.wb, .lit "we", .ws, .lit "see"],
              [.wb, .lit "we", .ws, .lit "find"],
              [.wb, .lit "we", .ws, .lit "conclude"]] lower ||
  reTestAlts [[.wb, .lit "this", .ws, .lit "gives"],
              [.wb, .lit "this", .ws, .lit "yields"],
              [.wb, .lit "this", .ws, .lit "shows"],
              [.wb, .lit "this", .ws, .lit "implies"]] lower ||
  reTest [.wb, .lit "it", .ws, .lit "follows", .ws, .lit "that"] lower

/-- Rule 10 trigger: `^(therefore|hence|thus|consequently|so)\b`,
`\bwe\s+conclude\s+that`, `\bthis\s+(proves|establishes|shows|demonstrates)`,
`\bQ\.?E\.?D\.?` (case-insensitively), or `∎`. -/
def conclusionRule (lower text : List Char) : Bool :=
  reTestStart [.lit "therefore", .wb] lower ||
  reTestStart [.lit "hence", .wb] lower ||
  reTestStart [.lit "thus", .wb] lower ||
  reTestStart [.lit "consequently", .wb] lower ||
  reTestStart [.lit "so", .wb] lower ||
  reTest [.wb, .lit "we", .ws, .lit "conclude", .ws, .lit "that"] lower ||
  reTestAlts [[.wb, .lit "this", .ws, .lit "proves"],
              [.wb, .lit "this", .ws, .lit "establishes"],
              [.wb, .lit "this", .ws, .lit "shows"],
              [.wb, .lit "this", .ws, .lit "demonstrates"]] lower ||
  reTest [.wb, .lit "q", .opt '.', .lit "e", .opt '.', .lit "d"] lower ||
  text.any (· == '∎')

/-- Rule 11 trigger: divisibility/parity/number-set vocabulary, an arithmetic
expression `\d+\s*[+\-*/]\s*\d+`, or `\b(gcd|lcm|mod|remainder)\b`. -/
def arithmeticRule (lower : List Char) : Bool :=
  reTestAlts [[.wb, .lit "divisible", .wb], [.wb, .lit "divides", .wb],
              [.wb, .lit "factor", .wb], [.wb, .lit "multiple", .wb]] lower ||
  reTestAlts [[.wb, .lit "even", .wb], [.wb, .lit "odd", .wb],
              [.wb, .lit "prime", .wb], [.wb, .lit "composite", .wb]] lower ||
  reTestAlts [[.wb, .lit "integer", .ws, .lit "number"],
              [.wb, .lit "rational", .ws, .lit "number"],
              [.wb, .lit "irrational", .ws, .lit "number"],
              [.wb, .lit "real", .ws, .lit "number"],
              [.wb, .lit "natural", .ws, .lit "number"]] lower ||
  reTest [.digits, .wsOpt,
          .cls (fun c => c == '+' || c == '-' || c == '*' || c == '/'),
          .wsOpt, .digits] lower ||
  reTestAlts [[.wb, .lit "gcd", .wb], [.wb, .lit "lcm", .wb],
              [.wb, .lit "mod", .wb], [.wb, .lit "remainder", .wb]] lower

/-- Rule 12 trigger: `[a-z]\s*[=<>≤≥≠]\s*[a-z0-9]` (case-insensitively),
`\bequation\b`, `\bsolve\s+for`. -/
def algebraicRule (lower : List Char) : Bool :=
  reTest [.cls (fun c => 'a' ≤ c && c ≤ 'z'), .wsOpt,
          .cls (fun c => c == '=' || c == '<' || c == '>' || c == '≤' || c == '≥' || c == '≠'),
          .wsOpt, .cls (fun c => ('a' ≤ c && c ≤ 'z') || c.isDigit)] lower ||
  reTest [.wb, .lit "equation", .wb] lower ||
  reTest [.wb, .lit "solve", .ws, .lit "for"] lower

/-- Rule 13 trigger: subset/element/union vocabulary or a set symbol. -/
def setTheoryRule (lower text : List Char) : Bool :=
  reTestAlts [[.wb, .lit "subset", .wb], [.wb, .lit "superset", .wb],
              [.wb, .lit "element", .wb],
              [.wb, .lit "belongs", .ws, .lit "to", .wb],
              [.wb, .lit "contained", .ws, .lit "in", .wb]] lower ||
  reTestAlts [[.wb, .lit "union", .wb], [.wb, .lit "intersection", .wb],
              [.wb, .lit "complement", .wb],
              [.wb, .lit "empty", .ws, .lit "set", .wb]] lower ||
  text.any (fun c =>
    c == '∈' || c == '∉' || c == '⊂' || c == '⊃' || c == '∪' || c == '∩' || c == '∅')

/-- The ordered first-match-wins classifier, embedding `classifySentence`
from `src/nlp/tokenizer.js` (a sequential if/else-if chain). -/
def classifySentence (sentence : String) : Sentence :=
  let text := trimS sentence
  let lower := lowerL text.data
  let td := text.data
  if inductionRule lower then ⟨"induction", text⟩
  else if contradictionRule lower then ⟨"contradiction", text⟩
  else if caseRule lower then ⟨"case", text⟩
  else if definitionRule lower then ⟨"definition", text⟩
  else if existentialRule lower td then ⟨"existential", text⟩
  else if universalRule lower td then ⟨"universal", text⟩
  else if implicationRule lower td then ⟨"implication", text⟩
  else if assumptionRule lower then ⟨"assumption", text⟩
  else if stepRule lower then ⟨"step", text⟩
  else if conclusionRule lower td then ⟨"conclusion", text⟩
  else if arithmeticRule lower then ⟨"arithmetic", text⟩
  else if algebraicRule lower then ⟨"algebraic", text⟩
  else if setTheoryRule lower td then ⟨"set_theory", text⟩
  else ⟨"other", text⟩

/-- Embedding of `tokenizeSentences`.  Sentence-boundary detection is an
external collaborator (the `compromise` library), abstracted as the `split`
argument; the guards on empty input and blank fragments are the source's. -/
def tokenizeSentences (split : String → List String) (text : String) : List Sentence :=
  if (trimS text).data.isEmpty then []
  else ((split text).filter (fun s => !(trimS s).data.isEmpty)).map classifySentence

/-! ## Entity extractor (`src/nlp/entities.js`) -/

/-- An extracted entity `{ name, type, examples }`. -/
structure Entity where
  name : String
  type : String
  examples : List String
deriving DecidableEq, Repr

/-- Worker for `dedupFirst`, carrying the set of already-seen values. -/
def dedupFirstAux (seen : List String) : List String → List String
  | [] => []
  | x :: xs =>
      if seen.contains x then dedupFirstAux seen xs
      else x :: dedupFirstAux (x :: seen) xs

/-- Keep the first occurrence of each element, modelling iteration of a
JavaScript `Set` built by successive insertion (`[...new Set(l)]`). -/
def dedupFirst (l : List String) : List String := dedupFirstAux [] l

/-- Embedding of `addEntity`: create the keyed entry on first sight, then
push the example truncated to 80 characters while fewer than 5 are stored. -/
def addEntity (es : List Entity) (name ty ex : String) : List Entity :=
  let es' := if es.any (fun e => e.name == name) then es else es ++ [⟨name, ty, []⟩]
  es'.map (fun e =>
    if e.name == name && !ex.data.isEmpty && e.examples.length < 5 then
      { e with examples := e.examples ++ [⟨ex.data.take 80⟩] }
    else e)

/-- ASCII letter test (JavaScript `[a-zA-Z]`). -/
def isAsciiAlpha (c : Char) : Bool := c.isAlpha

/-- Opening bracket class `[\{\(]` of the subscripted-identifier pattern. -/
def isOpenSub (c : Char) : Bool := c == Char.ofNat 123 || c == '('

/-- Closing bracket class `[\}\)]` of the subscripted-identifier pattern. -/
def isCloseSub (c : Char) : Bool := c == Char.ofNat 125 || c == ')'

/-- All matches of `\b([a-zA-Z])\b` (standalone single letters). -/
def singleLetterMatches (text : List Char) : List String :=
  (scanAll [[.wb, .cls isAsciiAlpha, .wb]] text).map (fun m => ⟨m⟩)

/-- All matches (full text `m[0]`) of `\b([a-zA-Z])_?[\{\(]?(\d+)[\}\)]?`. -/
def subscriptedMatches (text : List Char) : List String :=
  (scanAll [[.wb, .cls isAsciiAlpha, .opt '_', .optCls isOpenSub, .digits,
             .optCls isCloseSub]] text).map (fun m => ⟨m⟩)

/-- The spelled-out Greek letter names recognised by the source. -/
def greekNames : List String :=
  ["alpha", "beta", "gamma", "delta", "epsilon", "theta", "lambda", "mu",
   "sigma", "pi", "phi", "psi", "omega"]

/-- All matches of `\b(alpha|beta|...)\b/gi`, returned in original case. -/
def greekNameMatches (text : List Char) : List String :=
  (scanAll (greekNames.map (fun n => [.wb, .litCI n, .wb])) text).map (fun m => ⟨m⟩)

/-- Literal Greek letters, the character class `[α-ωΑ-Ω]`. -/
def isGreekChar (c : Char) : Bool :=
  (913 ≤ c.toNat && c.toNat ≤ 937) || (945 ≤ c.toNat && c.toNat ≤ 969)

/-- The single-letter exclusion set (`excludeWords`). -/
def excludeWords : List String := ["a", "A", "I", "O"]

/-- Embedding of `extractVariables` (entities version): standalone letters,
subscripted identifiers, Greek names (original case) and Greek symbols. -/
def extractVariables (text : List Char) (es : List Entity) : List Entity :=
  let es := (singleLetterMatches text |>.filter (fun v => !excludeWords.contains v)).foldl
    (fun acc v => addEntity acc v "variable" ⟨text⟩) es
  let es := (subscriptedMatches text).foldl
    (fun acc v => addEntity acc v "variable" ⟨text⟩) es
  let es := (greekNameMatches text).foldl
    (fun acc g => addEntity acc g "variable" ⟨text⟩) es
  (text.filter isGreekChar).foldl
    (fun acc g => addEntity acc ⟨[g]⟩ "variable" ⟨text⟩) es

/-- One row of the `typePatterns` table: a trigger on the lower-cased text,
the symbolic name to record and the example label. -/
def typeRow (trigger : List (List P)) (name label : String) :
    (List Char → Bool) × String × String :=
  (fun lower => reTestAlts trigger lower, name, label)

/-- Embedding of the `typePatterns` table of `extractTypes`. -/
def typePatterns : List ((List Char → Bool) × String × String) :=
  [typeRow [[.wb, .lit "integer"], [.wb, .lit "int"], [.wb, .lit "ℤ"],
            [.wb, .lit "z", .wsOrEnd]] "ℤ" "Integer",
   typeRow [[.wb, .lit "natural"], [.wb, .lit "ℕ"], [.wb, .lit "n", .wsOrEnd]] "ℕ" "Natural",
   typeRow [[.wb, .lit "real"], [.wb, .lit "ℝ"], [.wb, .lit "r", .wsOrEnd]] "ℝ" "Real",
   typeRow [[.wb, .lit "rational"], [.wb, .lit "ℚ"], [.wb, .lit "q", .wsOrEnd]] "ℚ" "Rational",
   typeRow [[.wb, .lit "complex"], [.wb, .lit "ℂ"], [.wb, .lit "c", .wsOrEnd]] "ℂ" "Complex",
   typeRow [[.wb, .lit "bool", .opt 'e', .opt 'a', .opt 'n'], [.wb, .lit "prop"],
            [.wb, .lit "proposition"]] "Prop" "Proposition"]

/-- Embedding of `extractTypes`. -/
def extractTypes (lower : List Char) (es : List Entity) : List Entity :=
  typePatterns.foldl
    (fun acc row =>
      if row.1 lower then addEntity acc row.2.1 "type" (row.2.2 ++ " number/type") else acc)
    es

/-- The whitelisted function names of `extractFunctions`. -/
def functionNames : List String :=
  ["sin", "cos", "tan", "log", "ln", "exp", "sqrt", "abs", "floor", "ceil",
   "gcd", "lcm", "min", "max"]

/-- Embedding of `extractFunctions`: whitelist matches (original case) plus
single letters immediately applied to an opening parenthesis. -/
def extractFunctions (text : List Char) (es : List Entity) : List Entity :=
  let named := (scanAll (functionNames.map (fun n => [.wb, .litCI n, .wb])) text).map
    (fun m => (⟨m⟩ : String))
  let es := named.foldl (fun acc f => addEntity acc f "function" ⟨text⟩) es
  let customs := (scanAll [[.wb, .cls isAsciiAlpha, .wsOpt, .lit "("]] text).filterMap
    (fun m => m.head?.map (fun c => (⟨[c]⟩ : String)))
  let customs := customs.filter (fun f =>
    !(["sin", "cos", "tan", "log", "exp"].contains (⟨lowerL f.data⟩ : String)))
  customs.foldl (fun acc f => addEntity acc f "function" ⟨text⟩) es

/-- Test of `/\be\b(?!\s*=)/` : a standalone `e` not followed by `\s*=`. -/
def eulerTest (text : List Char) : Bool :=
  (searchK [.wb, .lit "e", .wb]
    (fun _ rest =>
      if (dropCls Char.isWhitespace none rest).2.head? == some '=' then none else some ())
    none text).isSome

/-- Embedding of `extractConstants` (π, e, ∞, 0, 1). -/
def extractConstants (text : List Char) (es : List Entity) : List Entity :=
  let es := if reTest [.wb, .lit "π"] text || reTest [.litCI "pi", .wb] text then
    addEntity es "π" "constant" ⟨text⟩ else es
  let es := if eulerTest text then addEntity es "e" "constant" ⟨text⟩ else es
  let es := if reTest [.wb, .lit "∞"] text || reTest [.litCI "infinity", .wb] text then
    addEntity es "∞" "constant" ⟨text⟩ else es
  let es := if reTest [.wb, .lit "0", .wb] text then addEntity es "0" "constant" ⟨text⟩ else es
  if reTest [.wb, .lit "1", .wb] text then addEntity es "1" "constant" ⟨text⟩ else es

/-- The fixed property vocabulary of `extractProperties`. -/
def propertyWords : List String :=
  ["even", "odd", "prime", "composite",
   "divisible", "factor", "multiple",
   "positive", "negative", "nonzero",
   "continuous", "differentiable", "integrable",
   "bounded", "unbounded",
   "convergent", "divergent",
   "injective", "surjective", "bijective",
   "associative", "commutative", "distributive"]

/-- Embedding of `extractProperties`. -/
def extractProperties (text lower : List Char) (es : List Entity) : List Entity :=
  propertyWords.foldl
    (fun acc p =>
      if reTest [.wb, .lit p, .wb] lower then addEntity acc p "property" ⟨text⟩ else acc)
    es

/-- Literal opening brace of the set-definition pattern `\b([A-Z])\s*=\s*\{`. -/
def isOpenBrace (c : Char) : Bool := c == Char.ofNat 123

/-- Embedding of `extractSets`: identifiers defined by `X = {` plus the
generic `Set` concept when set vocabulary appears. -/
def extractSets (text lower : List Char) (es : List Entity) : List Entity :=
  let defs := (scanAll [[.wb, .cls (fun c => c.isUpper), .wsOpt, .lit "=", .wsOpt,
                         .cls isOpenBrace]] text).filterMap
    (fun m => m.head?.map (fun c => (⟨[c]⟩ : String)))
  let es := defs.foldl (fun acc s => addEntity acc s "set" ⟨text⟩) es
  if reTestAlts [[.wb, .lit "set", .wb], [.wb, .lit "subset", .wb],
                 [.wb, .lit "superset", .wb], [.wb, .lit "union", .wb],
                 [.wb, .lit "intersection", .wb]] lower then
    addEntity es "Set" "concept" ⟨text⟩
  else es

/-- Embedding of `extractEntities`: scan every sentence in order, then cap
each entity's examples at 3 distinct truncated snippets. -/
def extractEntities (sentences : List Sentence) : List Entity :=
  let es := sentences.foldl
    (fun acc s =>
      if s.text.data.isEmpty then acc
      else
        let text := s.text.data
        let lower := lowerL text
        let acc := extractVariables text acc
        let acc := extractTypes lower acc
        let acc := extractFunctions text acc
        let acc := extractConstants text acc
        let acc := extractProperties text lower acc
        extractSets text lower acc)
    []
  es.map (fun e => { e with examples := (dedupFirst e.examples).take 3 })

/-! ## Proof-tree builder (`src/nlp/proofTree.js`) -/

/-- An assumption node `{ id, text, variables }` (no `dependsOn` field). -/
structure Assumption where
  id : String
  text : String
  «variables» : List String
deriving DecidableEq, Repr

/-- The base-case / inductive-step annotation record of an induction step. -/
structure Substeps where
  baseCase : Option String
  inductiveStep : Option String
deriving DecidableEq, Repr

/-- A step node.  Fields that are absent on some step kinds in the source
(`technique`, `variables`, `caseNumber`, `substeps`) default to the
inert value; no embedded function reads them where the source object
lacks them. -/
structure Step where
  id : String
  text : String
  type : String
  technique : Option String := none
  dependsOn : List String := []
  «variables» : List String := []
  caseNumber : Option Nat := none
  substeps : Option Substeps := none
deriving DecidableEq, Repr

/-- The goal node. -/
structure Goal where
  id : String
  text : String
  dependsOn : List String
  «variables» : List String
deriving DecidableEq, Repr

/-- Tree metadata; the source's `Set`s are modelled as insertion-ordered
duplicate-free lists, so the final `Set`-to-`Array` conversion of
`buildProofTree` is the identity here. -/
structure Metadata where
  proofTechniques : List String := []
  «variables» : List String := []
  types : List String := []
deriving DecidableEq, Repr

/-- The proof tree. -/
structure ProofTree where
  assumptions : List Assumption := []
  steps : List Step := []
  goal : Option Goal := none
  entities : List Entity := []
  metadata : Metadata := {}
deriving DecidableEq, Repr

/-- The builder-local variable scope: an insertion-ordered map from a
variable name to the node ids that introduced or constrained it. -/
abbrev Scope := List (String × List String)

/-- Lookup in the variable scope (`Map.prototype.get`). -/
def scopeFind (sc : Scope) (v : String) : Option (List String) :=
  (sc.find? (fun p => p.1 == v)).map (fun p => p.2)

/-- `variableScope.has(v) ? get(v).push(id) : set(v, [id])`. -/
def scopeAppendId (sc : Scope) (v id : String) : Scope :=
  if (sc.find? (fun p => p.1 == v)).isSome then
    sc.map (fun p => if p.1 == v then (p.1, p.2 ++ [id]) else p)
  else sc ++ [(v, [id])]

/-- `if (!variableScope.has(v)) set(v, [id])` (existential registration). -/
def scopeSetIfAbsent (sc : Scope) (v id : String) : Scope :=
  if (sc.find? (fun p => p.1 == v)).isSome then sc else sc ++ [(v, [id])]

/-- `Set.prototype.add` on an insertion-ordered duplicate-free list. -/
def insertUnique (l : List String) (v : String) : List String :=
  if l.contains v then l else l ++ [v]

/-- Embedding of `extractVariablesFromText`: standalone letters (minus the
exclusion set), subscripted identifiers, and lower-cased Greek names,
deduplicated in insertion order. -/
def extractVariablesFromText (text : String) : List String :=
  let t := text.data
  let singles := (singleLetterMatches t).filter (fun v => !excludeWords.contains v)
  let subs := subscriptedMatches t
  let greeks := (greekNameMatches t).map (fun g => (⟨lowerL g.data⟩ : String))
  dedupFirst (singles ++ subs ++ greeks)

/-- Last match of `\b([a-zA-Z])\b` in a suffix with known previous character. -/
def lastStandaloneLetter (prev : Option Char) (l : List Char) : Option String :=
  ((scanAllAux [[.wb, .cls isAsciiAlpha, .wb]] (l.length + 1) prev l).map
    (fun m => (⟨m⟩ : String))).getLast?

/-- Embedding of `extractInductionVariable`: the three ordered patterns
`\binduction\s+on\s+([a-zA-Z])`, `\bprove\s+by\s+induction\s+(?:that\s+)?.*\b([a-zA-Z])\b`
(whose greedy `.*` captures the last standalone letter of the line) and
`\bfor\s+all\s+([a-zA-Z])\s+in\s+ℕ`, all case-insensitive. -/
def extractInductionVariable (text : String) : Option String :=
  let t := text.data
  let p1 : Option String := searchK [.wb, .litCI "induction", .ws, .litCI "on", .ws]
    (fun _ rest =>
      match rest with
      | c :: _ => if isAsciiAlpha c then some (⟨[c]⟩ : String) else none
      | [] => none) none t
  match p1 with
  | some v => some v
  | none =>
    let p2 : Option String :=
      searchK [.wb, .litCI "prove", .ws, .litCI "by", .ws, .litCI "induction", .ws]
        (fun p rest =>
          let rest' := lineTake rest
          match matchP [.litCI "that", .ws] p rest' with
          | some (p2, r2) => lastStandaloneLetter p2 r2
          | none => lastStandaloneLetter p rest') none t
    match p2 with
    | some v => some v
    | none =>
        searchK [.wb, .litCI "for", .ws, .litCI "all", .ws]
          (fun _ rest =>
            match rest with
            | c :: cs =>
                if isAsciiAlpha c &&
                   (matchP [.ws, .litCI "in", .ws, .lit "ℕ"] (some c) cs).isSome then
                  some (⟨[c]⟩ : String)
                else none
            | [] => none) none t

/-- Embedding of `handleAssumption`: create `a<n>`, register its variables
into the scope and the metadata variable set, and append it. -/
def handleAssumption (s : Sentence) (tree : ProofTree) (scope : Scope) :
    ProofTree × Scope :=
  let assumptionId := "a" ++ toString (tree.assumptions.length + 1)
  let vars := extractVariablesFromText s.text
  let a : Assumption := ⟨assumptionId, s.text, vars⟩
  let scope := vars.foldl (fun sc v => scopeAppendId sc v assumptionId) scope
  let md := { tree.metadata with
    «variables» := vars.foldl insertUnique tree.metadata.«variables» }
  ({ tree with assumptions := tree.assumptions ++ [a], metadata := md }, scope)

/-- Embedding of `handleConclusion`: the goal depends on every created step,
or on every assumption when no step exists; a later conclusion replaces the
goal wholesale. -/
def handleConclusion (s : Sentence) (tree : ProofTree) (createdSteps : List Step) :
    ProofTree :=
  let goalDeps := createdSteps.map (fun st => st.id)
  let goalDeps := if goalDeps.isEmpty then tree.assumptions.map (fun a => a.id) else goalDeps
  { tree with goal := some ⟨"goal", s.text, dedupFirst goalDeps,
      extractVariablesFromText s.text⟩ }

/-- Embedding of `handleInduction`. -/
def handleInduction (s : Sentence) (tree : ProofTree) (createdSteps : List Step)
    (scope : Scope) (stepId : Nat) : ProofTree × List Step :=
  let deps : List String :=
    match extractInductionVariable s.text with
    | some v =>
        match scopeFind scope v with
        | some ids => ids
        | none => []
    | none => []
  let deps :=
    match createdSteps.getLast? with
    | some last => deps ++ [last.id]
    | none => deps
  let step : Step :=
    { id := "s" ++ toString stepId, text := s.text,
      type := "induction", technique := some "induction",
      dependsOn := dedupFirst deps, substeps := some ⟨none, none⟩ }
  ({ tree with steps := tree.steps ++ [step] }, createdSteps ++ [step])

/-- Embedding of `handleContradiction`: depend on the last `min(3, count)`
created steps. -/
def handleContradiction (s : Sentence) (tree : ProofTree) (createdSteps : List Step)
    (stepId : Nat) : ProofTree × List Step :=
  let lookback := min 3 createdSteps.length
  let deps := (createdSteps.drop (createdSteps.length - lookback)).map (fun st => st.id)
  let step : Step :=
    { id := "s" ++ toString stepId, text := s.text,
      type := "contradiction", technique := some "proof_by_contradiction",
      dependsOn := deps }
  ({ tree with steps := tree.steps ++ [step] }, createdSteps ++ [step])

/-- Embedding of `handleCase`: depend on the immediately preceding step and
push onto the case stack. -/
def handleCase (s : Sentence) (tree : ProofTree) (createdSteps : List Step)
    (caseStack : List String) (stepId : Nat) :
    ProofTree × List Step × List String :=
  let deps : List String :=
    match createdSteps.getLast? with
    | some prev => [prev.id]
    | none => []
  let step : Step :=
    { id := "s" ++ toString stepId, text := s.text,
      type := "case", technique := some "case_analysis", dependsOn := deps,
      caseNumber := some (caseStack.length + 1) }
  ({ tree with steps := tree.steps ++ [step] }, createdSteps ++ [step],
   caseStack ++ [step.id])

/-- Embedding of `handleExistential`: register fresh witnesses only, then
depend on the immediately preceding step. -/
def handleExistential (s : Sentence) (tree : ProofTree) (createdSteps : List Step)
    (scope : Scope) (stepId : Nat) : ProofTree × List Step × Scope :=
  let sid := "s" ++ toString stepId
  let vars := extractVariablesFromText s.text
  let scope := vars.foldl (fun sc v => scopeSetIfAbsent sc v sid) scope
  let md := { tree.metadata with
    «variables» := vars.foldl insertUnique tree.metadata.«variables» }
  let deps : List String :=
    match createdSteps.getLast? with
    | some last => [last.id]
    | none => []
  let step : Step :=
    { id := sid, text := s.text, type := "existential",
      technique := some "existential_intro", dependsOn := deps, «variables» := vars }
  ({ tree with steps := tree.steps ++ [step], metadata := md },
   createdSteps ++ [step], scope)

/-- Embedding of `handleUniversal`. -/
def handleUniversal (s : Sentence) (tree : ProofTree) (createdSteps : List Step)
    (stepId : Nat) : ProofTree × List Step :=
  let deps : List String :=
    match createdSteps.getLast? with
    | some last => [last.id]
    | none => []
  let step : Step :=
    { id := "s" ++ toString stepId, text := s.text,
      type := "universal", technique := some "universal_intro", dependsOn := deps }
  ({ tree with steps := tree.steps ++ [step] }, createdSteps ++ [step])

/-- Alternatives of `\b(by|from|using)\s+(step|assumption|equation)\s+(\d+)`. -/
def refPattern1Alts : List (List P) :=
  (["by", "from", "using"].map (fun a =>
    ["step", "assumption", "equation"].map (fun b =>
      [P.wb, P.lit a, P.ws, P.lit b, P.ws, P.digits]))).flatten

/-- Alternatives of `\b(above|previous|earlier)\s+(step|statement|equation)`. -/
def refPattern2Alts : List (List P) :=
  (["above", "previous", "earlier"].map (fun a =>
    ["step", "statement", "equation"].map (fun b =>
      [P.wb, P.lit a, P.ws, P.lit b]))).flatten

/-- Stage 1/2 of `inferDependencies`: an explicit back-reference pattern
hit adds the most recently created step's id. -/
def depStageRef (createdSteps : List Step) (hit : Bool) (dep : List String) :
    List String :=
  if hit then
    match createdSteps.getLast? with
    | some last => insertUnique dep last.id
    | none => dep
  else dep

/-- Stage 3 of `inferDependencies`: every sentence variable found in the
variable scope contributes all of its recorded ids. -/
def depStageScope (scope : Scope) (sentenceVars : List String)
    (dep : List String) : List String :=
  sentenceVars.foldl (fun acc v =>
    match scopeFind scope v with
    | some ids => ids.foldl insertUnique acc
    | none => acc) dep

/-- Stage 4 of `inferDependencies`: cross-reference variable entities
against the assumptions' recorded variables. -/
def depStageEntities (tree : ProofTree) (sentenceVars : List String)
    (entities : List Entity) (dep : List String) : List String :=
  entities.foldl (fun acc ent =>
    if ent.type == "variable" && sentenceVars.contains ent.name then
      tree.assumptions.foldl (fun acc2 a =>
        if a.«variables».contains ent.name then insertUnique acc2 a.id else acc2)
        acc
    else acc) dep

/-- Stage 5 of `inferDependencies`: when no candidate was found and a step
exists, fall back to the most recent step. -/
def depStageFallbackStep (createdSteps : List Step) (dep : List String) :
    List String :=
  if dep.isEmpty then
    match createdSteps.getLast? with
    | some last => insertUnique dep last.id
    | none => dep
  else dep

/-- The variable-overlap accumulation of stage 6 (`foundAssumption` loop). -/
def depStageMatched (tree : ProofTree) (sentenceVars : List String)
    (dep : List String) : List String :=
  tree.assumptions.foldl (fun acc a =>
    if a.«variables».any (fun v => sentenceVars.contains v) then
      insertUnique acc a.id
    else acc) dep

/-- Stage 6 of `inferDependencies`: when still empty and assumptions exist,
add every assumption sharing a variable, else the first assumption. -/
def depStageFallbackAsm (tree : ProofTree) (sentenceVars : List String)
    (dep : List String) : List String :=
  if dep.isEmpty && !tree.assumptions.isEmpty then
    if (depStageMatched tree sentenceVars dep).isEmpty then
      match tree.assumptions.head? with
      | some a => insertUnique (depStageMatched tree sentenceVars dep) a.id
      | none => depStageMatched tree sentenceVars dep
    else depStageMatched tree sentenceVars dep
  else dep

/-- Embedding of `inferDependencies` (the unused loop-index parameter of the
source is omitted).  Candidates accumulate, in source order: explicit
back-reference phrasing, variable-scope hits, assumption cross-references
via extracted variable entities, then the most-recent-step and assumption
fallbacks; the result is the insertion-ordered deduplicated union (the
candidate set is kept duplicate-free throughout, as the source's `Set`). -/
def inferDependencies (sentence : Sentence) (tree : ProofTree)
    (createdSteps : List Step) (scope : Scope) (entities : List Entity) :
    List String :=
  let lower := lowerL sentence.text.data
  let sentenceVars := extractVariablesFromText sentence.text
  let deps : List String := []
  let deps := depStageRef createdSteps (reTestAlts refPattern1Alts lower) deps
  let deps := depStageRef createdSteps (reTestAlts refPattern2Alts lower) deps
  let deps := depStageScope scope sentenceVars deps
  let deps := depStageEntities tree sentenceVars entities deps
  let deps := depStageFallbackStep createdSteps deps
  depStageFallbackAsm tree sentenceVars deps

/-- Embedding of `handleStep` (the generic-step handler). -/
def handleStep (s : Sentence) (tree : ProofTree) (createdSteps : List Step)
    (scope : Scope) (entities : List Entity) (stepId : Nat) :
    ProofTree × List Step :=
  let deps := inferDependencies s tree createdSteps scope entities
  let step : Step :=
    { id := "s" ++ toString stepId, text := s.text,
      type := if s.type == "" then "step" else s.type,
      dependsOn := deps, «variables» := extractVariablesFromText s.text }
  ({ tree with steps := tree.steps ++ [step] }, createdSteps ++ [step])

/-- The builder's loop state: the tree plus the mutable locals of
`buildProofTree` (`stepId`, `createdSteps`, `variableScope`, `caseStack`). -/
structure BState where
  tree : ProofTree
  stepId : Nat
  createdSteps : List Step
  variableScope : Scope
  caseStack : List String
deriving Repr

/-- Initial builder state. -/
def initState (entities : List Entity) : BState :=
  ⟨{ entities := entities }, 0, [], [], []⟩

/-- One iteration of the builder loop: skip empty-text sentences, record the
technique, and dispatch on the sentence category exactly as the source
`switch` does (`++stepId` before each step-creating handler). -/
def processSentence (entities : List Entity) (st : BState) (s : Sentence) : BState :=
  if s.text.data.isEmpty then st
  else
    let tree0 :=
      if s.type == "" then st.tree
      else { st.tree with metadata := { st.tree.metadata with
        proofTechniques := insertUnique st.tree.metadata.proofTechniques s.type } }
    match s.type with
    | "assumption" =>
        let r := handleAssumption s tree0 st.variableScope
        { st with tree := r.1, variableScope := r.2 }
    | "conclusion" =>
        { st with tree := handleConclusion s tree0 st.createdSteps }
    | "induction" =>
        let r := handleInduction s tree0 st.createdSteps st.variableScope (st.stepId + 1)
        { st with tree := r.1, createdSteps := r.2, stepId := st.stepId + 1 }
    | "contradiction" =>
        let r := handleContradiction s tree0 st.createdSteps (st.stepId + 1)
        { st with tree := r.1, createdSteps := r.2, stepId := st.stepId + 1 }
    | "case" =>
        let r := handleCase s tree0 st.createdSteps st.caseStack (st.stepId + 1)
        { st with
            tree := r.1, createdSteps := r.2.1, caseStack := r.2.2,
            stepId := st.stepId + 1 }
    | "existential" =>
        let r := handleExistential s tree0 st.createdSteps st.variableScope (st.stepId + 1)
        { st with
            tree := r.1, createdSteps := r.2.1, variableScope := r.2.2,
            stepId := st.stepId + 1 }
    | "universal" =>
        let r := handleUniversal s tree0 st.createdSteps (st.stepId + 1)
        { st with tree := r.1, createdSteps := r.2, stepId := st.stepId + 1 }
    | _ =>
        let r := handleStep s tree0 st.createdSteps st.variableScope entities
          (st.stepId + 1)
        { st with tree := r.1, createdSteps := r.2, stepId := st.stepId + 1 }

/-- The category dispatch of `processSentence`, abstracted over the state
whose tree already records the technique.  `dispatch entities st s` is
definitionally the `match` in `processSentence` with `tree0 := st.tree`. -/
def dispatch (entities : List Entity) (st : BState) (s : Sentence) : BState :=
  match s.type with
  | "assumption" =>
      let r := handleAssumption s st.tree st.variableScope
      { st with tree := r.1, variableScope := r.2 }
  | "conclusion" =>
      { st with tree := handleConclusion s st.tree st.createdSteps }
  | "induction" =>
      let r := handleInduction s st.tree st.createdSteps st.variableScope (st.stepId + 1)
      { st with tree := r.1, createdSteps := r.2, stepId := st.stepId + 1 }
  | "contradiction" =>
      let r := handleContradiction s st.tree st.createdSteps (st.stepId + 1)
      { st with tree := r.1, createdSteps := r.2, stepId := st.stepId + 1 }
  | "case" =>
      let r := handleCase s st.tree st.createdSteps st.caseStack (st.stepId + 1)
      { st with
          tree := r.1, createdSteps := r.2.1, caseStack := r.2.2,
          stepId := st.stepId + 1 }
  | "existential" =>
      let r := handleExistential s st.tree st.createdSteps st.variableScope (st.stepId + 1)
      { st with
          tree := r.1, createdSteps := r.2.1, variableScope := r.2.2,
          stepId := st.stepId + 1 }
  | "universal" =>
      let r := handleUniversal s st.tree st.createdSteps (st.stepId + 1)
      { st with tree := r.1, createdSteps := r.2, stepId := st.stepId + 1 }
  | _ =>
      let r := handleStep s st.tree st.createdSteps st.variableScope entities
        (st.stepId + 1)
      { st with tree := r.1, createdSteps := r.2, stepId := st.stepId + 1 }

/-- The builder loop over all sentences. -/
def buildState (sentences : List Sentence) (entities : List Entity) : BState :=
  sentences.foldl (processSentence entities) (initState entities)

/-- The tree as built, before the validation pass.  The source's final
`Set`-to-`Array` metadata conversion is the identity on this model. -/
def buildProofTreeRaw (sentences : List Sentence) (entities : List Entity) : ProofTree :=
  (buildState sentences entities).tree

/-! ### Cycle validation (`validateTree`) -/

/-- A node as seen by `validateTree`'s lookup over
`[...assumptions, ...steps, goal]`. -/
inductive VNode where
  | asm : Assumption → VNode
  | step : Step → VNode
  | goal : Goal → VNode
deriving DecidableEq, Repr

/-- Node id. -/
def VNode.nodeId : VNode → String
  | .asm a => a.id
  | .step s => s.id
  | .goal g => g.id

/-- Node dependencies; assumptions carry no `dependsOn` field, so the DFS
loop over them is vacuous. -/
def VNode.deps : VNode → List String
  | .asm _ => []
  | .step s => s.dependsOn
  | .goal g => g.dependsOn

/-- First node with the given id in `[...assumptions, ...steps, goal]`. -/
def findNode (t : ProofTree) (id : String) : Option VNode :=
  match t.assumptions.find? (fun a => a.id == id) with
  | some a => some (.asm a)
  | none =>
      match t.steps.find? (fun s => s.id == id) with
      | some s => some (.step s)
      | none =>
          match t.goal with
          | some g => if g.id == id then some (.goal g) else none
          | none => none

/-- The DFS state: the `visited` and `recursionStack` sets shared across all
top-level `hasCycle` calls of one `validateTree` run. -/
abbrev DfsState := List String × List String

/-- Fuelled embedding of the recursive `hasCycle`.  The fuel only bounds the
recursion depth of the shallow embedding; `dfsFuel` exceeds the depth any
run can reach (each recursive descent inserts a fresh node id into
`visited`), so the fuel-exhaustion branch is unreachable. -/
def hasCycleAux (t : ProofTree) : Nat → String → DfsState → Bool × DfsState
  | 0, _, st => (true, st)
  | fuel + 1, id, (vis, stk) =>
      if stk.contains id then (true, (vis, stk))
      else if vis.contains id then (false, (vis, stk))
      else
        match findNode t id with
        | none => (false, (id :: vis, (id :: stk).erase id))
        | some n =>
            let r := n.deps.foldl
              (fun acc d => if acc.1 then acc else hasCycleAux t fuel d acc.2)
              (false, (id :: vis, id :: stk))
            if r.1 then r else (r.1, (r.2.1, r.2.2.erase id))

/-- Fuel sufficient for any DFS run over `t` (strictly more than the node
count, which bounds the recursion depth). -/
def dfsFuel (t : ProofTree) : Nat :=
  t.assumptions.length + t.steps.length + 2

/-- The `tree.steps.forEach` loop of `validateTree`: check each step in
order against the current (possibly already repaired) tree, clearing the
dependency set of any step found on a cycle. -/
def valLoop : Nat → Nat → ProofTree → DfsState → ProofTree × DfsState
  | 0, _, t, st => (t, st)
  | rem + 1, i, t, st =>
      match t.steps.get? i with
      | none => (t, st)
      | some step =>
          let r := hasCycleAux t (dfsFuel t) step.id st
          let t' :=
            if r.1 then { t with steps := t.steps.set i { step with dependsOn := [] } }
            else t
          valLoop rem (i + 1) t' r.2

/-- Embedding of `validateTree`.  The trailing goal check of the source only
emits a console warning and never modifies the tree, so it is dropped from
this pure model. -/
def validateTree (t : ProofTree) : ProofTree :=
  (valLoop t.steps.length 0 t ([], [])).1

/-- Embedding of `buildProofTree` (build, convert metadata, validate). -/
def buildProofTree (sentences : List Sentence) (entities : List Entity) : ProofTree :=
  validateTree (buildProofTreeRaw sentences entities)

/-! ## Skeleton generator (`lean/generator.js`, shipped as `src/unnamed/part_000`).
The source export `generateLean` is embedded as `generateLeanCode`, and the
formalizers `parseGoalToLean` / `parseAssumptionToLean` as
`parseGoalToLeanProp` / `parseAssumptionToLeanProp`. -/

/-- ASCII upper-casing of one character. -/
def asciiUpper (c : Char) : Char :=
  if 'a' ≤ c ∧ c ≤ 'z' then Char.ofNat (c.toNat - 32) else c

/-- `w.charAt(0).toUpperCase() + w.slice(1)`. -/
def capFirst : List Char → List Char
  | [] => []
  | c :: cs => asciiUpper c :: cs

/-- A single-quote character, used by the generated successor-case binder. -/
def squote : String := ⟨[Char.ofNat 39]⟩

/-- The options record of `generateLean`; absent fields take the
destructuring defaults (`user_proof`, `true`, `true`). -/
structure GenOptions where
  theoremName : Option String := none
  includeComments : Option Bool := none
  useAdmit : Option Bool := none
deriving Repr

/-- The generator context `{ code, indent, hypotheses, variables, stepCounter }`. -/
structure GenCtx where
  code : String
  indent : Nat
  hypotheses : List (String × String)
  «variables» : List (String × String)
  stepCounter : Nat
deriving Repr

/-- `Map.prototype.set`: update in place, or append a new binding. -/
def ctxVarsSet (vars : List (String × String)) (k v : String) :
    List (String × String) :=
  if (vars.find? (fun p => p.1 == k)).isSome then
    vars.map (fun p => if p.1 == k then (p.1, v) else p)
  else vars ++ [(k, v)]

/-- Embedding of `addLine`: append `'  '.repeat(indent) + text + '\n'`. -/
def addLine (ctx : GenCtx) (text : String) : GenCtx :=
  { ctx with code := ctx.code ++ (⟨List.replicate (2 * ctx.indent) ' '⟩ : String)
      ++ text ++ "\n" }

/-- Embedding of `escapeComment`'s first pass,
`replace(/\*\//g, '* /')`: left-to-right non-overlapping replacement. -/
def replaceStarSlash : List Char → List Char
  | [] => []
  | [c] => [c]
  | a :: b :: rest =>
      if a == '*' && b == '/' then '*' :: ' ' :: '/' :: replaceStarSlash rest
      else a :: replaceStarSlash (b :: rest)

/-- Embedding of `escapeComment`'s second pass, `replace(/\n/g, ' ')`. -/
def nlFix (c : Char) : Char := if c == '\n' then ' ' else c

/-- Embedding of `escapeComment`: neutralise `*/` and flatten newlines. -/
def escapeComment (s : String) : String :=
  ⟨(replaceStarSlash s.data).map nlFix⟩

/-- Embedding of `addComment`. -/
def addComment (ctx : GenCtx) (text : String) : GenCtx :=
  addLine ctx ("-- " ++ escapeComment text)

/-- Embedding of `inferVariableType`: keyword sniffing over the entity's
joined lower-cased examples, then the tree's type metadata, default `ℕ`. -/
def inferVariableType (entity : Entity) (tree : ProofTree) : String :=
  let ex := lowerL (String.intercalate " " entity.examples).data
  if containsL ex "integer".data || containsL ex "ℤ".data then "ℤ"
  else if containsL ex "natural".data || containsL ex "ℕ".data then "ℕ"
  else if containsL ex "real".data || containsL ex "ℝ".data then "ℝ"
  else if containsL ex "rational".data || containsL ex "ℚ".data then "ℚ"
  else if containsL ex "even".data || containsL ex "odd".data ||
          containsL ex "divisible".data then "ℤ"
  else if containsL ex "prime".data then "ℕ"
  else if tree.metadata.types.contains "ℤ" || tree.metadata.types.contains "Integer" then "ℤ"
  else if tree.metadata.types.contains "ℕ" || tree.metadata.types.contains "Natural" then "ℕ"
  else if tree.metadata.types.contains "ℝ" || tree.metadata.types.contains "Real" then "ℝ"
  else "ℕ"

/-- First pattern of `scanForTypes`:
`/let\s+([a-z])\s+be\s+an?\s+(integer|natural|real|rational)/i`. -/
def scanTypeP1 (t : List Char) : Option (String × String) :=
  searchK [.litCI "let", .ws]
    (fun _ rest =>
      match rest with
      | c :: cs =>
          if isAsciiAlpha c then
            match matchP [.ws, .litCI "be", .ws, .litCI "a", .opt 'n', .ws] (some c) cs with
            | some (p2, r2) =>
                if (stripLitCI "integer".data p2 r2).isSome then some (⟨[c]⟩, "ℤ")
                else if (stripLitCI "natural".data p2 r2).isSome then some (⟨[c]⟩, "ℕ")
                else if (stripLitCI "real".data p2 r2).isSome then some (⟨[c]⟩, "ℝ")
                else if (stripLitCI "rational".data p2 r2).isSome then some (⟨[c]⟩, "ℚ")
                else none
            | none => none
          else none
      | [] => none) none t

/-- Second pattern of `scanForTypes`:
`/([a-z])\s+(?:is|be)\s+an?\s+(even|odd)\s+(integer|number)/i` (type `ℤ`). -/
def scanTypeP2 (t : List Char) : Option String :=
  searchK [.cls isAsciiAlpha]
    (fun p rest =>
      match p with
      | some c =>
          let tail :=
            (["is", "be"].map (fun v =>
              (["even", "odd"].map (fun e =>
                ["integer", "number"].map (fun n =>
                  [P.ws, P.litCI v, P.ws, P.litCI "a", P.opt 'n', P.ws,
                   P.litCI e, P.ws, P.litCI n]))).flatten)).flatten
          if (tryAlts tail p rest).isSome then some (⟨[c]⟩ : String) else none
      | none => none) none t

/-- Third pattern of `scanForTypes`:
`/([a-z])\s+(?:is|be)\s+an?\s+prime\s+number/i` (type `ℕ`). -/
def scanTypeP3 (t : List Char) : Option String :=
  searchK [.cls isAsciiAlpha]
    (fun p rest =>
      match p with
      | some c =>
          let tail :=
            ["is", "be"].map (fun v =>
              [P.ws, P.litCI v, P.ws, P.litCI "a", P.opt 'n', P.ws,
               P.litCI "prime", P.ws, P.litCI "number"])
          if (tryAlts tail p rest).isSome then some (⟨[c]⟩ : String) else none
      | none => none) none t

/-- Membership symbols of the fourth `scanForTypes` pattern. -/
def isTypeSymbol (c : Char) : Bool :=
  c == 'ℤ' || c == 'ℕ' || c == 'ℝ' || c == 'ℚ'

/-- Embedding of `scanForTypes`, updating the context's variable map. -/
def scanForTypes (text : String) (vars : List (String × String)) :
    List (String × String) :=
  let t := text.data
  let vars :=
    match scanTypeP1 t with
    | some (v, ty) => ctxVarsSet vars v ty
    | none => vars
  let vars :=
    match scanTypeP2 t with
    | some v => ctxVarsSet vars v "ℤ"
    | none => vars
  let vars :=
    match scanTypeP3 t with
    | some v => ctxVarsSet vars v "ℕ"
    | none => vars
  (scanAll [[.cls (fun c => 'a' ≤ c && c ≤ 'z'), .wsOpt, .lit "∈", .wsOpt,
             .cls isTypeSymbol]] t).foldl
    (fun acc m =>
      match m.head?, m.getLast? with
      | some v, some ty => ctxVarsSet acc ⟨[v]⟩ ⟨[ty]⟩
      | _, _ => acc) vars

/-- Embedding of `inferTypes`: type every variable entity, then scan the
assumptions for explicit type phrases. -/
def inferTypes (tree : ProofTree) : List (String × String) :=
  let vars := tree.entities.foldl
    (fun acc e =>
      if e.type == "variable" then ctxVarsSet acc e.name (inferVariableType e tree)
      else acc) []
  tree.assumptions.foldl (fun acc a => scanForTypes a.text acc) vars

/-- Embedding of `generateVariableDeclarations`. -/
def generateVariableDeclarations (ctx : GenCtx) : GenCtx :=
  let ctx' := addComment ctx "Variable declarations"
  ctx'.«variables».foldl
    (fun c p => addLine c ("variable (" ++ p.1 ++ " : " ++ p.2 ++ ")")) ctx'

/-- Strip of the leading discourse marker in `parseGoalToLean`:
`replace(/^(therefore|hence|thus|we conclude that|this proves that)\s+/i, '')`. -/
def stripGoalPrefix (t : List Char) : List Char :=
  match tryAlts [[.litCI "therefore", .ws], [.litCI "hence", .ws], [.litCI "thus", .ws],
                 [.litCI "we conclude that", .ws], [.litCI "this proves that", .ws]]
      none t with
  | some (_, rest) => rest
  | none => t

/-- Match `/([a-z])\s+is\s+(even|odd)/i`, capturing the variable and the
parity word in original case. -/
def evenOddGoalMatch (t : List Char) : Option (Char × List Char) :=
  searchK [.cls isAsciiAlpha]
    (fun p rest =>
      match p with
      | some c =>
          match matchP [.ws, .litCI "is", .ws] p rest with
          | some (p2, r2) =>
              if (stripLitCI "even".data p2 r2).isSome then some (c, r2.take 4)
              else if (stripLitCI "odd".data p2 r2).isSome then some (c, r2.take 3)
              else none
          | none => none
      | none => none) none t

/-- Match `/([a-z])\s+is\s+divisible\s+by\s+([a-z])/i`. -/
def divisibleGoalMatch (t : List Char) : Option (Char × Char) :=
  searchK [.cls isAsciiAlpha]
    (fun p rest =>
      match p with
      | some a =>
          match matchP [.ws, .litCI "is", .ws, .litCI "divisible", .ws, .litCI "by", .ws]
              p rest with
          | some (_, r) =>
              match r with
              | c :: _ => if isAsciiAlpha c then some (a, c) else none
              | [] => none
          | none => none
      | none => none) none t

/-- The greedy split of `(.+)\s+for some\s+([a-z])`: the latest position on
the line at which the tail still matches, mirroring backtracking from the
right. -/
def existsSplitAux (acc : List Char) (prev : Option Char) (rest : List Char) :
    Option (List Char × Char) :=
  let here : Option (List Char × Char) :=
    if acc.isEmpty then none
    else
      match matchP [.ws, .litCI "for some", .ws] prev rest with
      | some (_, r2) =>
          match r2 with
          | c :: _ => if isAsciiAlpha c then some (acc.reverse, c) else none
          | [] => none
      | none => none
  match rest with
  | [] => here
  | c :: cs =>
      if isLineBreak c then here
      else
        match existsSplitAux (c :: acc) (some c) cs with
        | some r => some r
        | none => here

/-- Match `/([a-z])\s*=\s*(.+)\s+for some\s+([a-z])/i`. -/
def existsGoalMatch (t : List Char) : Option (Char × List Char × Char) :=
  searchK [.cls isAsciiAlpha]
    (fun p rest =>
      match p with
      | some m1 =>
          match matchP [.wsOpt, .lit "=", .wsOpt] p rest with
          | some (p2, r2) =>
              match existsSplitAux [] p2 r2 with
              | some (m2, m3) => some (m1, m2, m3)
              | none => none
          | none => none
      | none => none) none t

/-- Match `/for all\s+([a-z]),\s*(.+)/i`. -/
def forallGoalMatch (t : List Char) : Option (Char × List Char) :=
  searchK [.litCI "for all", .ws]
    (fun _ rest =>
      match rest with
      | c :: cs =>
          if isAsciiAlpha c then
            match matchP [.lit ",", .wsOpt] (some c) cs with
            | some (_, r2) =>
                let m2 := lineTake r2
                if m2.isEmpty then none else some (c, m2)
            | none => none
          else none
      | [] => none) none t

/-- Embedding of `parseGoalToLean`: ordered template matching over the
cleaned goal text, falling back to a placeholder that interpolates the
cleaned text verbatim into a line comment. -/
def parseGoalToLeanProp (text : String) : String :=
  let clean := trimL (stripGoalPrefix text.data)
  match evenOddGoalMatch clean with
  | some (v, w) => (⟨capFirst w⟩ : String) ++ " " ++ ⟨[v]⟩
  | none =>
  match divisibleGoalMatch clean with
  | some (a, b) => (⟨[b]⟩ : String) ++ " ∣ " ++ ⟨[a]⟩
  | none =>
  match existsGoalMatch clean with
  | some (m1, m2, m3) =>
      "∃ " ++ (⟨[m3]⟩ : String) ++ ", " ++ (⟨[m1]⟩ : String) ++ " = " ++ ⟨m2⟩
  | none =>
  match forallGoalMatch clean with
  | some (v, body) => "∀ " ++ (⟨[v]⟩ : String) ++ ", " ++ ⟨body⟩
  | none => "True -- TODO: formalize \"" ++ (⟨clean⟩ : String) ++ "\""

/-- Match of the assumption parity template
`/([a-z])\s+(?:is|be)\s+(?:an?\s+)?(even|odd)(?:\s+integer)?/i`. -/
def evenOddAsmMatch (t : List Char) : Option (Char × List Char) :=
  searchK [.cls isAsciiAlpha]
    (fun p rest =>
      match p with
      | some v =>
          match tryAlts [[.ws, .litCI "is", .ws], [.ws, .litCI "be", .ws]] p rest with
          | some (p2, r2) =>
              let attempt := fun (p3 : Option Char) (r3 : List Char) =>
                if (stripLitCI "even".data p3 r3).isSome then some (v, r3.take 4)
                else if (stripLitCI "odd".data p3 r3).isSome then some (v, r3.take 3)
                else none
              (match matchP [.litCI "a", .opt 'n', .ws] p2 r2 with
               | some (p3, r3) =>
                   match attempt p3 r3 with
                   | some x => some x
                   | none => attempt p2 r2
               | none => attempt p2 r2)
          | none => none
      | none => none) none t

/-- Match of `/([a-z])\s+(?:is|be)\s+(?:a\s+)?prime(?:\s+number)?/i`. -/
def primeAsmMatch (t : List Char) : Option Char :=
  searchK [.cls isAsciiAlpha]
    (fun p rest =>
      match p with
      | some v =>
          match tryAlts [[.ws, .litCI "is", .ws], [.ws, .litCI "be", .ws]] p rest with
          | some (p2, r2) =>
              let attempt := fun (p3 : Option Char) (r3 : List Char) =>
                if (stripLitCI "prime".data p3 r3).isSome then some v else none
              (match matchP [.litCI "a", .ws] p2 r2 with
               | some (p3, r3) =>
                   match attempt p3 r3 with
                   | some x => some x
                   | none => attempt p2 r2
               | none => attempt p2 r2)
          | none => none
      | none => none) none t

/-- Comparison operators of the assumption inequality template. -/
def isRelOp (c : Char) : Bool :=
  c == '>' || c == '≥' || c == '<' || c == '≤' || c == '=' || c == '≠'

/-- Match of `/([a-z])\s*([>≥<≤=≠])\s*(\d+)/` (case-sensitive). -/
def ineqAsmMatch (t : List Char) : Option (Char × Char × List Char) :=
  searchK [.cls (fun c => 'a' ≤ c && c ≤ 'z')]
    (fun p rest =>
      match p with
      | some v =>
          match matchP [.wsOpt] p rest with
          | some (_, r1) =>
              match r1 with
              | op :: r2 =>
                  if isRelOp op then
                    match matchP [.wsOpt] (some op) r2 with
                    | some (_, r3) =>
                        let ds := r3.takeWhile Char.isDigit
                        if ds.isEmpty then none else some (v, op, ds)
                    | none => none
                  else none
              | [] => none
          | none => none
      | none => none) none t

/-- Embedding of `parseAssumptionToLean`. -/
def parseAssumptionToLeanProp (text : String) : String :=
  let clean := trimL
    (match tryAlts [[.litCI "assume", .ws], [.litCI "suppose", .ws],
                    [.litCI "let", .ws]] none text.data with
     | some (_, rest) => rest
     | none => text.data)
  match evenOddAsmMatch clean with
  | some (v, w) => (⟨capFirst w⟩ : String) ++ " " ++ ⟨[v]⟩
  | none =>
  match primeAsmMatch clean with
  | some v => "Nat.Prime " ++ (⟨[v]⟩ : String)
  | none =>
  match ineqAsmMatch clean with
  | some (v, op, ds) =>
      (⟨[v]⟩ : String) ++ " " ++ (⟨[op]⟩ : String) ++ " " ++ ⟨ds⟩
  | none => "True -- TODO: formalize \"" ++ (⟨clean⟩ : String) ++ "\""

/-- Embedding of `generateTheoremSignature`; the `||` fallbacks follow
JavaScript falsiness (empty text falls through). -/
def generateTheoremSignature (tree : ProofTree) (theoremName : String) : String :=
  let fromSteps : Option String :=
    match tree.steps.getLast? with
    | some s => some s.text
    | none => none
  let goalText : Option String :=
    match tree.goal with
    | some g => if g.text.data.isEmpty then fromSteps else some g.text
    | none => fromSteps
  match goalText with
  | some gt =>
      if gt.data.isEmpty then "theorem " ++ theoremName ++ " : True := by"
      else "theorem " ++ theoremName ++ " : " ++ parseGoalToLeanProp gt ++ " := by"
  | none => "theorem " ++ theoremName ++ " : True := by"

/-- Embedding of `generateAssumption`. -/
def generateAssumption (a : Assumption) (index : Nat) (ctx : GenCtx)
    (includeComments useAdmit : Bool) : GenCtx :=
  let hypName := "h" ++ toString (index + 1)
  let ctx := { ctx with hypotheses := ctxVarsSet ctx.hypotheses a.id hypName }
  let ctx :=
    if includeComments then
      addComment ctx ("Assumption " ++ toString (index + 1) ++ ": " ++ a.text)
    else ctx
  let leanAssertion := parseAssumptionToLeanProp a.text
  let ctx := addLine ctx ("have " ++ hypName ++ " : " ++ leanAssertion ++ " := by")
  let ctx := { ctx with indent := ctx.indent + 1 }
  let ctx := if useAdmit then addLine ctx "sorry" else ctx
  let ctx := { ctx with indent := ctx.indent - 1 }
  addLine ctx ""

/-- Match of `/induction\s+on\s+([a-z])/i` (no word boundary here). -/
def inductionOnVar (t : List Char) : Option String :=
  searchK [.litCI "induction", .ws, .litCI "on", .ws]
    (fun _ rest =>
      match rest with
      | c :: _ => if isAsciiAlpha c then some (⟨[c]⟩ : String) else none
      | [] => none) none t

/-- First match of `/\b([a-z])\b/i`. -/
def firstStandaloneLetter (t : List Char) : Option String :=
  searchK [.wb, .cls isAsciiAlpha, .wb]
    (fun p _ => p.map (fun c => (⟨[c]⟩ : String))) none t

/-- Embedding of `generateInduction`. -/
def generateInduction (step : Step) (ctx : GenCtx) (useAdmit : Bool) : GenCtx :=
  let inductVar : String :=
    match inductionOnVar step.text.data with
    | some v => v
    | none =>
        match firstStandaloneLetter step.text.data with
        | some v => v
        | none => "n"
  let ctx := addLine ctx ("induction " ++ inductVar ++ " with")
  let ctx := { ctx with indent := ctx.indent + 1 }
  let ctx := addLine ctx "| zero =>"
  let ctx := { ctx with indent := ctx.indent + 1 }
  let ctx :=
    match step.substeps with
    | some ss =>
        match ss.baseCase with
        | some bc => addComment ctx bc
        | none => addComment ctx "Base case"
    | none => addComment ctx "Base case"
  let ctx := if useAdmit then addLine ctx "sorry" else ctx
  let ctx := { ctx with indent := ctx.indent - 1 }
  let ctx := addLine ctx ("| succ " ++ inductVar ++ squote ++ " ih =>")
  let ctx := { ctx with indent := ctx.indent + 1 }
  let ctx :=
    match step.substeps with
    | some ss =>
        match ss.inductiveStep with
        | some is2 => addComment ctx is2
        | none => addComment ctx "Inductive step, ih is the inductive hypothesis"
    | none => addComment ctx "Inductive step, ih is the inductive hypothesis"
  let ctx := if useAdmit then addLine ctx "sorry" else ctx
  let ctx := { ctx with indent := ctx.indent - 1 }
  { ctx with indent := ctx.indent - 1 }

/-- Embedding of `generateContradiction`. -/
def generateContradiction (ctx : GenCtx) (useAdmit : Bool) : GenCtx :=
  let ctx := addLine ctx "by_contra h_contra"
  let ctx := { ctx with indent := ctx.indent + 1 }
  let ctx := addComment ctx "Assume the negation and derive a contradiction"
  let ctx := if useAdmit then addLine ctx "sorry" else ctx
  { ctx with indent := ctx.indent - 1 }

/-- Letters and underscore, the capture class of `extractCaseTarget`. -/
def isCaseWordChar (c : Char) : Bool := isAsciiAlpha c || c == '_'

/-- Grab a nonempty `[a-z_]+` capture. -/
def grabCaseWord (rest : List Char) : Option String :=
  let w := rest.takeWhile isCaseWordChar
  if w.isEmpty then none else some ⟨w⟩

/-- Embedding of `extractCaseTarget` (three ordered patterns). -/
def extractCaseTarget (text : String) : Option String :=
  let t := text.data
  let p1 := searchK [.litCI "consider", .ws, .litCI "the", .ws, .litCI "case", .ws]
    (fun p rest =>
      match tryAlts [[.litCI "where", .ws], [.litCI "when", .ws], [.litCI "of", .ws]]
          p rest with
      | some (_, r) => grabCaseWord r
      | none => none) none t
  match p1 with
  | some v => some v
  | none =>
    let p2 := searchK [.litCI "case", .optCls (fun c => asciiLower c == 's'), .ws,
                       .litCI "on", .ws]
      (fun _ r => grabCaseWord r) none t
    match p2 with
    | some v => some v
    | none =>
        searchK [.litCI "by", .ws, .litCI "cases", .ws, .litCI "on", .ws]
          (fun _ r => grabCaseWord r) none t

/-- Embedding of `generateCaseAnalysis`. -/
def generateCaseAnalysis (step : Step) (ctx : GenCtx) (useAdmit : Bool) : GenCtx :=
  let ctx :=
    match extractCaseTarget step.text with
    | some target => addLine ctx ("cases " ++ target ++ " with")
    | none => addLine (addLine ctx "-- Case analysis (specify target)") "cases _ with"
  let ctx := { ctx with indent := ctx.indent + 1 }
  let ctx := addLine ctx "| inl h_left =>"
  let ctx := { ctx with indent := ctx.indent + 1 }
  let ctx := if useAdmit then addLine ctx "sorry" else ctx
  let ctx := { ctx with indent := ctx.indent - 1 }
  let ctx := addLine ctx "| inr h_right =>"
  let ctx := { ctx with indent := ctx.indent + 1 }
  let ctx := if useAdmit then addLine ctx "sorry" else ctx
  let ctx := { ctx with indent := ctx.indent - 1 }
  { ctx with indent := ctx.indent - 1 }

/-- Try pattern alternatives at one position, each with the continuation. -/
def tryAltsK (alts : List (List P)) (k : Option Char → List Char → Option α)
    (prev : Option Char) (cs : List Char) : Option α :=
  match alts with
  | [] => none
  | ps :: rest =>
      match matchP ps prev cs with
      | some (p', r) =>
          match k p' r with
          | some a => some a
          | none => tryAltsK rest k prev cs
      | none => tryAltsK rest k prev cs

/-- Position-ordered search over several alternatives with a continuation. -/
def searchKAlts (alts : List (List P)) (k : Option Char → List Char → Option α) :
    Option Char → List Char → Option α
  | prev, [] => tryAltsK alts k prev []
  | prev, c :: cs =>
      match tryAltsK alts k prev (c :: cs) with
      | some a => some a
      | none => searchKAlts alts k (some c) cs

/-- Capture `([a-z](?:_\d+)?)` at the current position. -/
def grabWitness (rest : List Char) : Option String :=
  match rest with
  | c :: cs =>
      if isAsciiAlpha c then
        match cs with
        | '_' :: ds =>
            let run := ds.takeWhile Char.isDigit
            if run.isEmpty then some ⟨[c]⟩ else some ⟨c :: '_' :: run⟩
        | _ => some ⟨[c]⟩
      else none
  | [] => none

/-- Match of `/(?:exists?|choose|take)\s+([a-z](?:_\d+)?)/i`. -/
def existWitnessMatch (t : List Char) : Option String :=
  searchKAlts [[.litCI "exist", .opt 's', .ws], [.litCI "choose", .ws],
               [.litCI "take", .ws]]
    (fun _ rest => grabWitness rest) none t

/-- Match of `/\b([a-z])\s*=\s*/i` (the left-hand side of an equation). -/
def letterEqMatch (t : List Char) : Option String :=
  searchK [.wb, .cls isAsciiAlpha]
    (fun p rest =>
      match p with
      | some c =>
          if (matchP [.wsOpt, .lit "=", .wsOpt] p rest).isSome then
            some (⟨[c]⟩ : String)
          else none
      | none => none) none t

/-- Embedding of `generateExistential`: the `use` witness is the first
`exists/choose/take` capture, else the left-hand side of the first
equation, else a wildcard. -/
def generateExistential (step : Step) (ctx : GenCtx) (useAdmit : Bool) : GenCtx :=
  let witness : String :=
    match existWitnessMatch step.text.data with
    | some w => w
    | none =>
        match letterEqMatch step.text.data with
        | some w => w
        | none => "_"
  let ctx := addLine ctx ("use " ++ witness)
  if useAdmit then
    let ctx := { ctx with indent := ctx.indent + 1 }
    let ctx := addComment ctx ("Prove the property holds for " ++ witness)
    let ctx := addLine ctx "sorry"
    { ctx with indent := ctx.indent - 1 }
  else ctx

/-- Embedding of `generateUniversal`. -/
def generateUniversal (step : Step) (ctx : GenCtx) (useAdmit : Bool) : GenCtx :=
  let varName : String :=
    match
      searchKAlts [[.litCI "for all", .ws], [.litCI "for every", .ws]]
        (fun _ rest =>
          match rest with
          | c :: _ => if isAsciiAlpha c then some (⟨[c]⟩ : String) else none
          | [] => none) none step.text.data
    with
    | some v => v
    | none => "x"
  let ctx := addLine ctx ("intro " ++ varName)
  if useAdmit then
    let ctx := { ctx with indent := ctx.indent + 1 }
    let ctx := addComment ctx ("Show the property for arbitrary " ++ varName)
    let ctx := addLine ctx "sorry"
    { ctx with indent := ctx.indent - 1 }
  else ctx

/-- Embedding of `generateImplication`. -/
def generateImplication (ctx : GenCtx) (useAdmit : Bool) : GenCtx :=
  let ctx := addLine ctx "intro h_premise"
  if useAdmit then
    let ctx := { ctx with indent := ctx.indent + 1 }
    let ctx := addComment ctx "Assume the premise and prove the conclusion"
    let ctx := addLine ctx "sorry"
    { ctx with indent := ctx.indent - 1 }
  else ctx

/-- Embedding of `generateDefinition` (keyword-sniffed tactic choice). -/
def generateDefinition (step : Step) (ctx : GenCtx) : GenCtx :=
  if reTest [.litCI "simplif"] step.text.data then addLine ctx "simp [*]"
  else if reTest [.litCI "unfold"] step.text.data ||
          reTest [.litCI "expand"] step.text.data then
    addLine ctx "unfold _ -- specify definition to unfold"
  else addLine ctx "rw [_] -- specify rewrite rule"

/-- Embedding of `generateAlgebraic`. -/
def generateAlgebraic (step : Step) (ctx : GenCtx) (useAdmit : Bool) : GenCtx :=
  let lower := lowerL step.text.data
  let ctx := addLine ctx "have h_calc : _ := by"
  let ctx := { ctx with indent := ctx.indent + 1 }
  let ctx :=
    if containsL lower "ring".data || containsL lower "algebra".data then
      addLine ctx "ring"
    else if containsL lower "linear".data || containsL lower "add".data ||
            containsL lower "subtract".data then
      addLine ctx "linarith"
    else
      let ctx := addComment ctx "Algebraic manipulation"
      if useAdmit then addLine ctx "sorry" else ctx
  { ctx with indent := ctx.indent - 1 }

/-- Embedding of `generateGenericStep`. -/
def generateGenericStep (step : Step) (ctx : GenCtx) (useAdmit : Bool) : GenCtx :=
  let ctx := addLine ctx ("have h_" ++ step.id ++ " : _ := by")
  let ctx := { ctx with indent := ctx.indent + 1 }
  let ctx := if useAdmit then addLine ctx "sorry" else ctx
  { ctx with indent := ctx.indent - 1 }

/-- Embedding of `generateStep` (technique dispatch; the unused `tree`
parameter of the source is omitted). -/
def generateStep (step : Step) (ctx : GenCtx) (includeComments useAdmit : Bool) :
    GenCtx :=
  let ctx :=
    if includeComments then
      addComment ctx ("Step " ++ step.id ++ " (" ++ step.type ++ "): " ++ step.text)
    else ctx
  let ctx :=
    match step.type with
    | "induction" => generateInduction step ctx useAdmit
    | "contradiction" => generateContradiction ctx useAdmit
    | "case" => generateCaseAnalysis step ctx useAdmit
    | "existential" => generateExistential step ctx useAdmit
    | "universal" => generateUniversal step ctx useAdmit
    | "implication" => generateImplication ctx useAdmit
    | "definition" => generateDefinition step ctx
    | "arithmetic" => generateAlgebraic step ctx useAdmit
    | "algebraic" => generateAlgebraic step ctx useAdmit
    | _ => generateGenericStep step ctx useAdmit
  addLine ctx ""

/-- Embedding of `generateProofBody`. -/
def generateProofBody (tree : ProofTree) (ctx : GenCtx)
    (includeComments useAdmit : Bool) : GenCtx :=
  let ctx :=
    if tree.assumptions.isEmpty then ctx
    else
      let ctx := addComment ctx "Assumptions"
      let ctx := (tree.assumptions.enum).foldl
        (fun c p => generateAssumption p.2 p.1 c includeComments useAdmit) ctx
      addLine ctx ""
  let ctx :=
    if tree.steps.isEmpty then ctx
    else
      let ctx := addComment ctx "Proof steps"
      let ctx := tree.steps.foldl
        (fun c st => generateStep st c includeComments useAdmit) ctx
      addLine ctx ""
  let ctx :=
    match tree.goal with
    | some g => addComment ctx ("Goal: " ++ g.text)
    | none => ctx
  if useAdmit then addLine ctx "sorry" else ctx

/-- Embedding of the source export `generateLean` (tree validation guard,
type inference, header, declarations, signature, proof body). -/
def generateLeanCode (tree : Option ProofTree) (options : GenOptions) : String :=
  let theoremName := options.theoremName.getD "user_proof"
  let includeComments := options.includeComments.getD true
  let useAdmit := options.useAdmit.getD true
  match tree with
  | none => "-- Error: Invalid proof tree\n"
  | some tree =>
      let ctx : GenCtx := ⟨"", 0, [], [], 1⟩
      let ctx := { ctx with «variables» := inferTypes tree }
      let ctx := addLine ctx "-- Generated Lean 4 skeleton (rule-based)"
      let ctx := addLine ctx ""
      let ctx :=
        if ctx.«variables».isEmpty then ctx
        else addLine (generateVariableDeclarations ctx) ""
      let ctx := addLine ctx (generateTheoremSignature tree theoremName)
      let ctx := { ctx with indent := 1 }
      let ctx := generateProofBody tree ctx includeComments useAdmit
      ctx.code

/-! ## Scenario fixtures -/

/-- The Scenario A sentences, as split by the external boundary detector
and classified by the embedded classifier. -/
def scenarioASentences : List Sentence :=
  [classifySentence "Let n be an integer.",
   classifySentence "Assume n is even.",
   classifySentence "Then n = 2k for some k.",
   classifySentence "Therefore n is even."]

/-- Entities extracted from Scenario A (the pipeline feeds
`extractEntities(sentences)` into the builder). -/
def scenarioAEntities : List Entity := extractEntities scenarioASentences

/-- The Scenario A proof tree. -/
def scenarioATree : ProofTree := buildProofTree scenarioASentences scenarioAEntities

/-- The Scenario A generated skeleton, with the pipeline's default options. -/
def scenarioACode : String := generateLeanCode (some scenarioATree) {}

/-! ## Basic lemmas about the list-set helpers -/

theorem mem_insertUnique {l : List String} {v x : String}
    (h : x ∈ insertUnique l v) : x ∈ l ∨ x = v := by
  unfold insertUnique at h
  split at h
  · exact Or.inl h
  · rcases List.mem_append.mp h with h' | h'
    · exact Or.inl h'
    · exact Or.inr (List.mem_singleton.mp h')

theorem mem_dedupFirstAux {seen l : List String} {x : String}
    (h : x ∈ dedupFirstAux seen l) : x ∈ l := by
  induction l generalizing seen with
  | nil => simp [dedupFirstAux] at h
  | cons a l ih =>
      unfold dedupFirstAux at h
      split at h
      · exact List.mem_cons_of_mem _ (ih h)
      · rcases List.mem_cons.mp h with h' | h'
        · exact h' ▸ List.mem_cons_self _ _
        · exact List.mem_cons_of_mem _ (ih h')

theorem mem_dedupFirst {l : List String} {x : String}
    (h : x ∈ dedupFirst l) : x ∈ l :=
  mem_dedupFirstAux h

theorem not_mem_seen_of_mem_dedupFirstAux {seen l : List String} {x : String}
    (h : x ∈ dedupFirstAux seen l) : x ∉ seen := by
  induction l generalizing seen with
  | nil => simp [dedupFirstAux] at h
  | cons a l ih =>
      unfold dedupFirstAux at h
      split at h
      · exact ih h
      · next hcon =>
          rcases List.mem_cons.mp h with h' | h'
          · subst h'
            intro hx
            exact hcon (List.elem_eq_true_of_mem hx)
          · intro hx
            exact (ih h') (List.mem_cons_of_mem _ hx)

theorem nodup_dedupFirstAux (seen l : List String) :
    (dedupFirstAux seen l).Nodup := by
  induction l generalizing seen with
  | nil => simp [dedupFirstAux]
  | cons a l ih =>
      unfold dedupFirstAux
      split
      · exact ih seen
      · refine List.nodup_cons.mpr ⟨?_, ih (a :: seen)⟩
        intro ha
        exact not_mem_seen_of_mem_dedupFirstAux ha (List.mem_cons_self _ _)

theorem nodup_dedupFirst (l : List String) : (dedupFirst l).Nodup :=
  nodup_dedupFirstAux [] l

theorem mem_of_getLast? {l : List Step} {x : Step}
    (h : l.getLast? = some x) : x ∈ l := by
  induction l with
  | nil => simp [List.getLast?] at h
  | cons a l ih =>
      cases l with
      | nil => simp_all [List.getLast?]
      | cons b m =>
          rw [List.getLast?_cons_cons] at h
          exact List.mem_cons_of_mem _ (ih h)

/-- Membership through an accumulating fold: an element of the result is
either in the seed or contributed by some list element. -/
theorem mem_foldl_accum {α : Type} (f : List String → α → List String)
    (Q : String → α → Prop)
    (hf : ∀ acc a, ∀ d ∈ f acc a, d ∈ acc ∨ Q d a) :
    ∀ (l : List α) (acc : List String) (d : String),
      d ∈ l.foldl f acc → d ∈ acc ∨ ∃ a ∈ l, Q d a := by
  intro l
  induction l with
  | nil => intro acc d hd; exact Or.inl hd
  | cons a l ih =>
      intro acc d hd
      rcases ih (f acc a) d hd with h | ⟨b, hb, hQ⟩
      · rcases hf acc a d h with h' | h'
        · exact Or.inl h'
        · exact Or.inr ⟨a, List.mem_cons_self _ _, h'⟩
      · exact Or.inr ⟨b, List.mem_cons_of_mem _ hb, hQ⟩

/-! ## Comment-escaping properties (for the safety claim) -/

/-- No `*` is immediately followed by `/` anywhere in the list, i.e. the
text cannot contain a block-comment terminator. -/
def noStarSlash : List Char → Bool
  | [] => true
  | [_] => true
  | a :: b :: rest => !(a == '*' && b == '/') && noStarSlash (b :: rest)

theorem noStarSlash_cons (a : Char) (m : List Char) :
    noStarSlash (a :: m) =
      (!(a == '*' && m.head? == some '/') && noStarSlash m) := by
  cases m with
  | nil => simp [noStarSlash]
  | cons b bs => simp [noStarSlash]

theorem replaceStarSlash_head? (l : List Char) :
    (replaceStarSlash l).head? = l.head? := by
  match l with
  | [] => rfl
  | [c] => rfl
  | a :: b :: rest =>
      rw [replaceStarSlash]
      split
      · next h =>
          have : a = '*' := by
            have := (Bool.and_eq_true ..).mp h
            exact eq_of_beq this.1
          simp [this]
      · rfl

theorem noStarSlash_replaceStarSlash_aux :
    ∀ (n : Nat) (l : List Char), l.length ≤ n →
      noStarSlash (replaceStarSlash l) = true := by
  intro n
  induction n with
  | zero =>
      intro l hl
      have : l = [] := List.length_eq_zero.mp (Nat.le_zero.mp hl)
      subst this; rfl
  | succ n ih =>
      intro l hl
      match l with
      | [] => rfl
      | [c] => simp [replaceStarSlash, noStarSlash]
      | a :: b :: rest =>
          rw [replaceStarSlash]
          split
          · next h =>
              have hr : noStarSlash (replaceStarSlash rest) = true := by
                refine ih rest ?_
                simp only [List.length_cons] at hl
                omega
              simp only [noStarSlash, noStarSlash_cons]
              simp [hr]
          · next h =>
              have hr : noStarSlash (replaceStarSlash (b :: rest)) = true := by
                refine ih (b :: rest) ?_
                simp only [List.length_cons] at hl ⊢
                omega
              rw [noStarSlash_cons, replaceStarSlash_head?]
              simp only [hr, Bool.and_true]
              cases hb : (b == '/')
              · simp [List.head?, hb]
              · have : ¬(a == '*') = true := by
                  intro ha
                  rw [Bool.and_eq_true] at h
                  exact h ⟨ha, hb⟩
                simp [List.head?, Bool.not_eq_true] at this ⊢
                simp [this]

theorem noStarSlash_replaceStarSlash (l : List Char) :
    noStarSlash (replaceStarSlash l) = true :=
  noStarSlash_replaceStarSlash_aux l.length l (Nat.le_refl _)

theorem nlFix_eq_star {c : Char} (h : nlFix c = '*') : c = '*' := by
  unfold nlFix at h
  split at h
  · exact absurd h (by decide)
  · exact h

theorem nlFix_eq_slash {c : Char} (h : nlFix c = '/') : c = '/' := by
  unfold nlFix at h
  split at h
  · exact absurd h (by decide)
  · exact h

theorem noStarSlash_map_nlFix :
    ∀ m : List Char, noStarSlash m = true → noStarSlash (m.map nlFix) = true := by
  intro m
  induction m with
  | nil => intro _; rfl
  | cons a m ih =>
      intro h
      cases m with
      | nil => rfl
      | cons b bs =>
          simp only [noStarSlash, Bool.and_eq_true, Bool.not_eq_true',
            Bool.and_eq_false_iff] at h
          rcases h with ⟨h1, h2⟩
          have ih' := ih h2
          simp only [List.map_cons] at ih' ⊢
          simp only [noStarSlash, Bool.and_eq_true, Bool.not_eq_true',
            Bool.and_eq_false_iff]
          refine ⟨?_, ih'⟩
          rcases h1 with h1 | h1
          · left
            by_cases hs : (nlFix a == '*') = true
            · rw [nlFix_eq_star (eq_of_beq hs)] at h1
              simp at h1
            · simpa using hs
          · right
            by_cases hs : (nlFix b == '/') = true
            · rw [nlFix_eq_slash (eq_of_beq hs)] at h1
              simp at h1
            · simpa using hs

theorem escapeComment_no_newline (s : String) :
    (escapeComment s).data.all (fun c => !(c == '\n')) = true := by
  unfold escapeComment
  rw [List.all_eq_true]
  intro c hc
  rcases List.mem_map.mp hc with ⟨a, _, rfl⟩
  unfold nlFix
  split
  · decide
  · next h => simpa using h

/-! ## Claim C8 (comment-terminator neutralisation) -/

/-- A tree whose goal text contains an embedded newline and matches none of
the formalization templates, so it reaches the unformalized placeholder. -/
def newlineGoalTree : ProofTree :=
  { goal := some { id := "goal", text := "foo\nbar", dependsOn := [],
                   «variables» := [] } }

/-- C8 counterexample: the unformalized-placeholder path of the goal
formalizer interpolates the cleaned source text verbatim, so a goal text
containing a newline survives unflattened into the emitted skeleton and the
text after the newline (`bar" := by`) stands outside the `--` comment. -/
theorem comment_escape_counterexample :
    containsL (generateLeanCode (some newlineGoalTree) {}).data "foo\nbar".data = true ∧
    containsL (generateLeanCode (some newlineGoalTree) {}).data "\nbar\" := by\n".data
      = true := by
  exact ⟨by decide, by decide⟩

/-- C8 (amended): every text passed through the `escapeComment` helper (all
`addComment` emissions: goal/assumption/step header comments and substep
annotations) has comment terminators neutralised and newlines flattened —
the emitted string contains no newline and no `*/` from such texts — but
the unformalized placeholder propositions of the goal and assumption
formalizers interpolate the cleaned source text verbatim, without this
neutralisation. -/
theorem escapeComment_neutralizes (s : String) :
    (escapeComment s).data.all (fun c => !(c == '\n')) = true ∧
    noStarSlash (escapeComment s).data = true := by
  refine ⟨escapeComment_no_newline s, ?_⟩
  show noStarSlash ((replaceStarSlash s.data).map nlFix) = true
  exact noStarSlash_map_nlFix _ (noStarSlash_replaceStarSlash _)

/-! ## Claim C2 (totality on empty/neutral input) -/

/-- C2: `classify("")` is the empty sequence for every sentence splitter,
`extract([])` is the empty sequence, `build([], [])` yields a tree with
empty assumptions, steps and entities and a null goal, and
`generate(null, options)` is the one-line diagnostic comment, for every
options value; all are total functions of their inputs. -/
theorem pipeline_totality_on_empty :
    (∀ split : String → List String, tokenizeSentences split "" = []) ∧
    extractEntities [] = [] ∧
    (buildProofTree [] []).assumptions = [] ∧
    (buildProofTree [] []).steps = [] ∧
    (buildProofTree [] []).goal = none ∧
    (buildProofTree [] []).entities = [] ∧
    (∀ opts : GenOptions, generateLeanCode none opts = "-- Error: Invalid proof tree\n") :=
  ⟨fun _ => rfl, rfl, rfl, rfl, rfl, rfl, fun _ => rfl⟩

/-! ## Claim C3 (classifier priority) -/

/-- C3: any sentence whose (trimmed, lower-cased) text satisfies the
induction trigger is classified `induction`, even when it also satisfies
the generic step trigger — the if/else-if rule chain tests induction
first, so the first match wins. -/
theorem classifier_induction_priority (s : String)
    (hInd : inductionRule (lowerL (trimS s).data) = true)
    (hStep : stepRule (lowerL (trimS s).data) = true) :
    (classifySentence s).type = "induction" := by
  unfold classifySentence
  simp only [hInd, if_true]

/-- Witness for C3 at the sentence `"By induction we have n."`, which fires
both the induction trigger and the `we have` step trigger. -/
theorem classifier_induction_priority_witness :
    inductionRule (lowerL (trimS "By induction we have n.").data) = true ∧
    stepRule (lowerL (trimS "By induction we have n.").data) = true ∧
    (classifySentence "By induction we have n.").type = "induction" :=
  ⟨by decide, by decide,
   classifier_induction_priority "By induction we have n." (by decide) (by decide)⟩

/-! ## Claim C5 (Scenario A classification and tree shape) -/

/-- C5 counterexample: on the Scenario A input the builder produces two
assumptions, not one — sentence 1, `"Let n be an integer."`, is itself
classified `assumption` (rule 8, leading `let`), so the claimed count of
exactly 1 assumption is false. -/
theorem scenarioA_one_assumption_counterexample :
    scenarioATree.assumptions.length = 2 ∧
    ¬ scenarioATree.assumptions.length = 1 :=
  ⟨by decide, by decide⟩

/-- C5 (amended): sentences 2–4 of Scenario A classify as `assumption`,
`existential` and `conclusion`; sentence 1 also classifies `assumption`,
so the tree has exactly 2 assumptions; it has exactly one step, an
existential-introduction step that registers the fresh witness `k` into
the variable scope (mapped to the step's id `s1`), and the goal depends on
exactly that step. -/
theorem scenarioA_amended :
    (classifySentence "Assume n is even.").type = "assumption" ∧
    (classifySentence "Then n = 2k for some k.").type = "existential" ∧
    (classifySentence "Therefore n is even.").type = "conclusion" ∧
    (classifySentence "Let n be an integer.").type = "assumption" ∧
    scenarioATree.assumptions.length = 2 ∧
    scenarioATree.steps.length = 1 ∧
    scenarioATree.steps.map (fun s => s.technique) = [some "existential_intro"] ∧
    scenarioATree.steps.map (fun s => s.«variables») = [["n", "k"]] ∧
    scopeFind (buildState scenarioASentences scenarioAEntities).variableScope "k"
      = some ["s1"] ∧
    scenarioATree.goal.map (fun g => g.dependsOn) = some [["s1"]].flatten := by
  refine ⟨?_, ?_, ?_, ?_, ?_, ?_, ?_, ?_, ?_, ?_⟩ <;> decide

/-! ## Claim C6 (Scenario A generation) -/

/-- C6 counterexample: the generated Scenario A skeleton contains no
`use k` tactic — the witness-introduction tactic it emits is `use n`,
because the fallback witness pattern `\b([a-z])\s*=\s*` captures the
left-hand side of `n = 2k`, not the `for some k` witness. -/
theorem scenarioA_use_tactic_counterexample :
    containsL scenarioACode.data "use k".data = false ∧
    containsL scenarioACode.data "use n".data = true :=
  ⟨by decide, by decide⟩

/-- C6 (amended): the Scenario A goal formalizes to `Even n` (emitted in
the theorem signature), and the existential step emits the
witness-introduction tactic `use n` — naming the equation's left-hand
side captured by the fallback pattern, not the witness `k`. -/
theorem scenarioA_generation_amended :
    parseGoalToLeanProp "Therefore n is even." = "Even n" ∧
    containsL scenarioACode.data "theorem user_proof : Even n := by".data = true ∧
    containsL scenarioACode.data "use n".data = true := by
  refine ⟨?_, ?_, ?_⟩ <;> decide

/-! ## Claim C4 (fallback dependency of a generic step) -/

theorem scope_fold_noop (scope : Scope) (vars : List String) (acc : List String)
    (h : ∀ v ∈ vars, scopeFind scope v = none) :
    depStageScope scope vars acc = acc := by
  unfold depStageScope
  induction vars generalizing acc with
  | nil => rfl
  | cons v vs ih =>
      rw [List.foldl_cons]
      have hv := h v (List.mem_cons_self _ _)
      rw [hv]
      exact ih _ (fun u hu => h u (List.mem_cons_of_mem _ hu))

theorem foldl_const {α β : Type} (f : β → α → β) (h : ∀ acc a, f acc a = acc) :
    ∀ (l : List α) (acc : β), l.foldl f acc = acc := by
  intro l
  induction l with
  | nil => intro acc; rfl
  | cons a l ih =>
      intro acc
      rw [List.foldl_cons, h]
      exact ih _

/-- C4: a generic-category sentence with no explicit back-reference
phrasing, none of whose variables is recorded in the variable scope,
processed against a tree without assumptions but with at least one
previously created step, receives exactly the singleton dependency set
holding the most recently created step's id. -/
theorem fallback_dependency (s : Sentence) (tree : ProofTree)
    (createdSteps : List Step) (scope : Scope) (entities : List Entity)
    (last : Step)
    (hlast : createdSteps.getLast? = some last)
    (h1 : reTestAlts refPattern1Alts (lowerL s.text.data) = false)
    (h2 : reTestAlts refPattern2Alts (lowerL s.text.data) = false)
    (hscope : ∀ v ∈ extractVariablesFromText s.text, scopeFind scope v = none)
    (hasm : tree.assumptions = []) :
    inferDependencies s tree createdSteps scope entities = [last.id] := by
  simp only [inferDependencies]
  rw [h1, h2]
  simp only [depStageRef, Bool.false_eq_true, if_false]
  rw [scope_fold_noop scope _ _ hscope]
  rw [show depStageEntities tree (extractVariablesFromText s.text) entities [] = [] by
    unfold depStageEntities
    refine foldl_const _ ?_ _ _
    intro acc ent
    rw [hasm]
    split
    · rfl
    · rfl]
  rw [show depStageFallbackStep createdSteps [] = [last.id] by
    unfold depStageFallbackStep
    rw [List.isEmpty_nil, if_pos rfl, hlast]
    simp [insertUnique]]
  unfold depStageFallbackAsm
  rw [hasm]
  simp

/-- A prior step used by the C4 witness. -/
def c4Step : Step := { id := "s1", text := "We have x.", type := "step" }

/-- Witness for C4: a generic sentence with no variables, no back-reference
phrase, an empty scope, an assumption-free tree, and one prior step. -/
theorem fallback_dependency_witness :
    inferDependencies ⟨"step", "Then the result holds."⟩ {} [c4Step] [] []
      = [c4Step.id] :=
  fallback_dependency ⟨"step", "Then the result holds."⟩ {} [c4Step] [] [] c4Step
    (by decide) (by decide) (by decide) (by decide) rfl

/-! ## Claim C9 (entity example bounds) -/

/-- Every stored example snippet is at most 80 characters long. -/
def ExOk (es : List Entity) : Prop :=
  ∀ e ∈ es, ∀ x ∈ e.examples, x.data.length ≤ 80

theorem exOk_addEntity {es : List Entity} (name ty ex : String) (h : ExOk es) :
    ExOk (addEntity es name ty ex) := by
  have hbase : ExOk (if es.any (fun e => e.name == name) then es
      else es ++ [⟨name, ty, []⟩]) := by
    split
    · exact h
    · intro e he
      rcases List.mem_append.mp he with h' | h'
      · exact h e h'
      · rcases List.mem_singleton.mp h' with rfl
        intro x hx
        simp at hx
  simp only [addEntity]
  intro e he
  rcases List.mem_map.mp he with ⟨e0, he0, rfl⟩
  intro x hx
  revert hx
  split
  · intro hx
    rcases List.mem_append.mp hx with h' | h'
    · exact hbase e0 he0 x h'
    · rcases List.mem_singleton.mp h' with rfl
      simpa using List.length_take_le 80 ex.data
  · intro hx
    exact hbase e0 he0 x hx

theorem exOk_foldl {α : Type} (g : List Entity → α → List Entity)
    (hg : ∀ es a, ExOk es → ExOk (g es a)) :
    ∀ (l : List α) (es : List Entity), ExOk es → ExOk (l.foldl g es) := by
  intro l
  induction l with
  | nil => intro es h; exact h
  | cons a l ih => intro es h; exact ih _ (hg es a h)

theorem exOk_extractVariables (text : List Char) {es : List Entity}
    (h : ExOk es) : ExOk (extractVariables text es) := by
  unfold extractVariables
  refine exOk_foldl _ (fun es a h => exOk_addEntity _ _ _ h) _ _
    (exOk_foldl _ (fun es a h => exOk_addEntity _ _ _ h) _ _
      (exOk_foldl _ (fun es a h => exOk_addEntity _ _ _ h) _ _
        (exOk_foldl _ (fun es a h => exOk_addEntity _ _ _ h) _ _ h)))

theorem exOk_extractTypes (lower : List Char) {es : List Entity}
    (h : ExOk es) : ExOk (extractTypes lower es) := by
  unfold extractTypes
  refine exOk_foldl _ ?_ _ _ h
  intro es row h
  split
  · exact exOk_addEntity _ _ _ h
  · exact h

theorem exOk_extractFunctions (text : List Char) {es : List Entity}
    (h : ExOk es) : ExOk (extractFunctions text es) := by
  simp only [extractFunctions]
  exact exOk_foldl _ (fun es a h => exOk_addEntity _ _ _ h) _ _
    (exOk_foldl _ (fun es a h => exOk_addEntity _ _ _ h) _ _ h)

theorem exOk_ite {es : List Entity} (c : Bool) (n t x : String) (h : ExOk es) :
    ExOk (if c = true then addEntity es n t x else es) := by
  split
  · exact exOk_addEntity _ _ _ h
  · exact h

theorem exOk_extractConstants (text : List Char) {es : List Entity}
    (h : ExOk es) : ExOk (extractConstants text es) := by
  simp only [extractConstants]
  exact exOk_ite _ _ _ _ (exOk_ite _ _ _ _ (exOk_ite _ _ _ _
    (exOk_ite _ _ _ _ (exOk_ite _ _ _ _ h))))

theorem exOk_extractProperties (text lower : List Char) {es : List Entity}
    (h : ExOk es) : ExOk (extractProperties text lower es) := by
  unfold extractProperties
  refine exOk_foldl _ ?_ _ _ h
  intro es p h
  split
  · exact exOk_addEntity _ _ _ h
  · exact h

theorem exOk_extractSets (text lower : List Char) {es : List Entity}
    (h : ExOk es) : ExOk (extractSets text lower es) := by
  simp only [extractSets]
  split
  · exact exOk_addEntity _ _ _
      (exOk_foldl _ (fun es a h => exOk_addEntity _ _ _ h) _ _ h)
  · exact exOk_foldl _ (fun es a h => exOk_addEntity _ _ _ h) _ _ h

/-- C9: every entity returned by `extract` carries at most 3 pairwise
distinct example snippets, each truncated to at most 80 characters,
accumulated over all sentences. -/
theorem entity_examples_bounded (sentences : List Sentence) (e : Entity)
    (he : e ∈ extractEntities sentences) :
    e.examples.length ≤ 3 ∧ e.examples.Nodup ∧
    ∀ x ∈ e.examples, x.data.length ≤ 80 := by
  simp only [extractEntities] at he
  rcases List.mem_map.mp he with ⟨e0, he0, rfl⟩
  have hbase : ExOk (sentences.foldl
      (fun acc s =>
        if s.text.data.isEmpty then acc
        else
          extractSets s.text.data (lowerL s.text.data)
            (extractProperties s.text.data (lowerL s.text.data)
              (extractConstants s.text.data
                (extractFunctions s.text.data
                  (extractTypes (lowerL s.text.data)
                    (extractVariables s.text.data acc)))))) []) := by
    refine exOk_foldl _ ?_ _ _ ?_
    · intro es s h
      split
      · exact h
      · exact exOk_extractSets _ _ (exOk_extractProperties _ _
          (exOk_extractConstants _ (exOk_extractFunctions _
            (exOk_extractTypes _ (exOk_extractVariables _ h)))))
    · intro e he
      simp at he
  refine ⟨?_, ?_, ?_⟩
  · simpa using List.length_take_le 3 _
  · exact (nodup_dedupFirst e0.examples).sublist (List.take_sublist _ _)
  · intro x hx
    have hx' : x ∈ dedupFirst e0.examples := List.mem_of_mem_take hx
    exact hbase e0 he0 x (mem_dedupFirst hx')

/-- Witness for C9 at the single-sentence input `"q."`, which produces the
variable entity `q` with one example. -/
theorem entity_examples_bounded_witness :
    (⟨"q", "variable", ["q."]⟩ : Entity).examples.length ≤ 3 ∧
    (⟨"q", "variable", ["q."]⟩ : Entity).examples.Nodup ∧
    ∀ x ∈ (⟨"q", "variable", ["q."]⟩ : Entity).examples, x.data.length ≤ 80 :=
  entity_examples_bounded [⟨"other", "q."⟩] ⟨"q", "variable", ["q."]⟩ (by decide)

/-! ## Claim C7 (conclusion handling and goal dependencies) -/

theorem buildState_append (xs ys : List Sentence) (e : List Entity) :
    buildState (xs ++ ys) e = ys.foldl (processSentence e) (buildState xs e) := by
  unfold buildState
  rw [List.foldl_append]

theorem processSentence_goal (e : List Entity) (st : BState) (s : Sentence)
    (h : s.type = "conclusion" → s.text = "") :
    (processSentence e st s).tree.goal = st.tree.goal := by
  simp only [processSentence, handleAssumption, handleConclusion, handleInduction,
    handleContradiction, handleCase, handleExistential, handleUniversal, handleStep]
  split
  · rfl
  · next hne =>
      split
      case _ => split <;> rfl
      case _ heq =>
          refine absurd ?_ hne
          rw [h heq]
          decide
      all_goals split <;> rfl

theorem valLoop_goal : ∀ (n i : Nat) (t : ProofTree) (st : DfsState),
    (valLoop n i t st).1.goal = t.goal := by
  intro n
  induction n with
  | zero => intro i t st; rfl
  | succ n ih =>
      intro i t st
      unfold valLoop
      split
      · rfl
      · dsimp only
        split
        · rw [ih]
        · rw [ih]

theorem validateTree_goal (t : ProofTree) : (validateTree t).goal = t.goal :=
  valLoop_goal _ _ _ _

theorem foldl_goal_stable (e : List Entity) :
    ∀ (l : List Sentence) (st : BState),
      (∀ s ∈ l, s.type = "conclusion" → s.text = "") →
      (l.foldl (processSentence e) st).tree.goal = st.tree.goal := by
  intro l
  induction l with
  | nil => intro st _; rfl
  | cons s l ih =>
      intro st h
      rw [List.foldl_cons, ih _ (fun u hu => h u (List.mem_cons_of_mem _ hu)),
        processSentence_goal e st s (h s (List.mem_cons_self _ _))]

theorem processSentence_conclusion (e : List Entity) (st : BState) (c : Sentence)
    (hc : c.type = "conclusion") (hct : ¬ c.text.data.isEmpty = true) :
    (processSentence e st c).tree.goal =
      some ⟨"goal", c.text,
        dedupFirst (if (st.createdSteps.map (fun s => s.id)).isEmpty
          then st.tree.assumptions.map (fun a => a.id)
          else st.createdSteps.map (fun s => s.id)),
        extractVariablesFromText c.text⟩ := by
  simp only [processSentence, hc, handleConclusion]
  rw [if_neg hct]
  split <;> rfl

/-- C7: whenever the builder processes a conclusion sentence, the goal's
`dependsOn` is the set of all step ids created so far if any step exists,
and otherwise the set of all assumption ids; a tree holds at most one goal,
and when several conclusion sentences occur the goal in the returned tree
is the one built from the last (non-skipped) conclusion, from the builder
state reached just before it. -/
theorem conclusion_goal_dependencies (entities : List Entity)
    (pre post : List Sentence) (c : Sentence)
    (hc : c.type = "conclusion") (hct : c.text.data ≠ [])
    (hpost : ∀ s ∈ post, s.type = "conclusion" → s.text = "") :
    (buildProofTree (pre ++ c :: post) entities).goal =
      some ⟨"goal", c.text,
        dedupFirst
          (if ((buildState pre entities).createdSteps.map (fun s => s.id)).isEmpty
           then (buildState pre entities).tree.assumptions.map (fun a => a.id)
           else (buildState pre entities).createdSteps.map (fun s => s.id)),
        extractVariablesFromText c.text⟩ := by
  have hct' : ¬ c.text.data.isEmpty = true := by
    intro h
    exact hct (List.isEmpty_iff.mp h)
  rw [buildProofTree, validateTree_goal, buildProofTreeRaw, buildState_append,
    List.foldl_cons, foldl_goal_stable entities post _ hpost,
    processSentence_conclusion entities _ c hc hct']

/-- Witness for C7: the Scenario A prefix followed by its conclusion
sentence, with an empty tail. -/
theorem conclusion_goal_dependencies_witness :
    (buildProofTree
        ([classifySentence "Let n be an integer.",
          classifySentence "Assume n is even.",
          classifySentence "Then n = 2k for some k."] ++
          classifySentence "Therefore n is even." :: []) scenarioAEntities).goal =
      some ⟨"goal", (classifySentence "Therefore n is even.").text,
        dedupFirst
          (if ((buildState [classifySentence "Let n be an integer.",
                 classifySentence "Assume n is even.",
                 classifySentence "Then n = 2k for some k."] scenarioAEntities).createdSteps.map
                   (fun s => s.id)).isEmpty
           then (buildState [classifySentence "Let n be an integer.",
                  classifySentence "Assume n is even.",
                  classifySentence "Then n = 2k for some k."] scenarioAEntities).tree.assumptions.map
                    (fun a => a.id)
           else (buildState [classifySentence "Let n be an integer.",
                  classifySentence "Assume n is even.",
                  classifySentence "Then n = 2k for some k."] scenarioAEntities).createdSteps.map
                    (fun s => s.id)),
        extractVariablesFromText (classifySentence "Therefore n is even.").text⟩ :=
  conclusion_goal_dependencies scenarioAEntities _ [] _ (by decide) (by decide)
    (by intro s hs; cases hs)

/-! ## Claims C1 and C10: the dependency-order invariant of the builder -/

/-- The assumption ids of a tree. -/
def asmIds (t : ProofTree) : List String := t.assumptions.map (fun a => a.id)

/-- The step ids of a tree. -/
def stepIds (t : ProofTree) : List String := t.steps.map (fun s => s.id)

/-- Positional dependency soundness: every step's dependencies lie in the
assumption-id set or among the ids of strictly earlier steps (`prevIds`
accumulates the ids already passed). -/
def depsOkAux (A : List String) : List String → List Step → Prop
  | _, [] => True
  | prevIds, s :: rest =>
      (∀ d ∈ s.dependsOn, d ∈ A ∨ d ∈ prevIds) ∧
      depsOkAux A (prevIds ++ [s.id]) rest

/-- The builder-loop invariant. -/
structure BInv (st : BState) : Prop where
  createdEq : st.createdSteps = st.tree.steps
  asmHead : ∀ a ∈ st.tree.assumptions, a.id.data.head? = some 'a'
  stepHead : ∀ s ∈ st.tree.steps, s.id.data.head? = some 's'
  scopeOk : ∀ p ∈ st.variableScope, ∀ i ∈ p.2,
    i ∈ asmIds st.tree ∨ i ∈ stepIds st.tree
  depsOk : depsOkAux (asmIds st.tree) [] st.tree.steps
  goalOk : ∀ g, st.tree.goal = some g →
    g.id = "goal" ∧ ∀ d ∈ g.dependsOn, d ∈ asmIds st.tree ∨ d ∈ stepIds st.tree

theorem data_head_a (s : String) : ("a" ++ s).data.head? = some 'a' := by
  cases s; rfl

theorem data_head_s (s : String) : ("s" ++ s).data.head? = some 's' := by
  cases s; rfl

theorem depsOkAux_mono {A A' P : List String} {l : List Step}
    (hA : ∀ x ∈ A, x ∈ A') (h : depsOkAux A P l) : depsOkAux A' P l := by
  induction l generalizing P with
  | nil => trivial
  | cons s rest ih =>
      rcases h with ⟨h1, h2⟩
      exact ⟨fun d hd => (h1 d hd).imp (hA d) id, ih h2⟩

theorem depsOkAux_append {A P : List String} {l : List Step} {s : Step}
    (h : depsOkAux A P l)
    (hs : ∀ d ∈ s.dependsOn, d ∈ A ∨ d ∈ P ++ l.map (fun st => st.id)) :
    depsOkAux A P (l ++ [s]) := by
  induction l generalizing P with
  | nil =>
      refine ⟨fun d hd => ?_, trivial⟩
      rcases hs d hd with h' | h'
      · exact Or.inl h'
      · simp only [List.map_nil, List.append_nil] at h'
        exact Or.inr h'
  | cons a rest ih =>
      rcases h with ⟨h1, h2⟩
      refine ⟨h1, ih h2 ?_⟩
      intro d hd
      rcases hs d hd with h' | h'
      · exact Or.inl h'
      · refine Or.inr ?_
        simp only [List.map_cons, List.append_assoc, List.singleton_append] at h' ⊢
        exact h'

theorem scopeFind_mem {sc : Scope} {v : String} {ids : List String}
    (h : scopeFind sc v = some ids) : ∃ p ∈ sc, p.2 = ids := by
  unfold scopeFind at h
  cases hf : sc.find? (fun p => p.1 == v) with
  | none => rw [hf] at h; cases h
  | some p =>
      rw [hf] at h
      have h2 : some p.2 = some ids := h
      cases h2
      exact ⟨p, List.mem_of_find?_eq_some hf, rfl⟩

theorem mem_foldl_insertUnique {ids acc : List String} {d : String}
    (h : d ∈ ids.foldl insertUnique acc) : d ∈ acc ∨ d ∈ ids := by
  rcases mem_foldl_accum insertUnique (fun d i => d = i)
      (fun acc a d hd => mem_insertUnique hd) ids acc d h with h' | ⟨a, ha, rfl⟩
  · exact Or.inl h'
  · exact Or.inr ha

/-- Membership lemma for the first-assumption fallback. -/
theorem mem_of_head? {l : List Assumption} {a : Assumption}
    (h : l.head? = some a) : a ∈ l := by
  cases l with
  | nil => cases h
  | cons x xs =>
      simp only [List.head?_cons, Option.some.injEq] at h
      exact h ▸ List.mem_cons_self _ _

theorem depStageRef_sub {createdSteps : List Step} {hit : Bool}
    {dep : List String} {d : String} (h : d ∈ depStageRef createdSteps hit dep) :
    d ∈ dep ∨ d ∈ createdSteps.map (fun st => st.id) := by
  unfold depStageRef at h
  split at h
  · split at h
    · next last hg =>
        rcases mem_insertUnique h with h' | rfl
        · exact Or.inl h'
        · exact Or.inr (List.mem_map_of_mem _ (mem_of_getLast? hg))
    · exact Or.inl h
  · exact Or.inl h

theorem depStageScope_sub {scope : Scope} {vars dep : List String} {d : String}
    (h : d ∈ depStageScope scope vars dep) :
    d ∈ dep ∨ ∃ p ∈ scope, d ∈ p.2 := by
  unfold depStageScope at h
  rcases mem_foldl_accum _ (fun d (v : String) => ∃ p ∈ scope, d ∈ p.2)
      (fun acc v d hd => by
        revert hd
        split
        · next ids hids =>
            intro hd
            rcases mem_foldl_insertUnique hd with h' | h'
            · exact Or.inl h'
            · rcases scopeFind_mem hids with ⟨p, hp, rfl⟩
              exact Or.inr ⟨p, hp, h'⟩
        · intro hd; exact Or.inl hd)
      vars dep d h with h' | ⟨v, _, hq⟩
  · exact Or.inl h'
  · exact Or.inr hq

theorem asm_fold_sub {assumptions : List Assumption} {acc : List String}
    {d : String} (g : Assumption → Bool)
    (h : d ∈ assumptions.foldl
      (fun acc2 a => if g a then insertUnique acc2 a.id else acc2) acc) :
    d ∈ acc ∨ ∃ a ∈ assumptions, d = a.id := by
  rcases mem_foldl_accum _ (fun d (a : Assumption) => d = a.id)
      (fun acc a d hd => by
        revert hd
        split
        · intro hd; exact (mem_insertUnique hd).imp id id
        · intro hd; exact Or.inl hd)
      assumptions acc d h with h' | ⟨a, ha, rfl⟩
  · exact Or.inl h'
  · exact Or.inr ⟨a, ha, rfl⟩

theorem depStageEntities_sub {tree : ProofTree} {vars : List String}
    {entities : List Entity} {dep : List String} {d : String}
    (h : d ∈ depStageEntities tree vars entities dep) :
    d ∈ dep ∨ ∃ a ∈ tree.assumptions, d = a.id := by
  unfold depStageEntities at h
  rcases mem_foldl_accum _ (fun d (_ : Entity) => ∃ a ∈ tree.assumptions, d = a.id)
      (fun acc ent d hd => by
        revert hd
        split
        · intro hd
          rcases asm_fold_sub _ hd with h' | h'
          · exact Or.inl h'
          · exact Or.inr h'
        · intro hd; exact Or.inl hd)
      entities dep d h with h' | ⟨_, _, hq⟩
  · exact Or.inl h'
  · exact Or.inr hq

theorem depStageFallbackStep_sub {createdSteps : List Step} {dep : List String}
    {d : String} (h : d ∈ depStageFallbackStep createdSteps dep) :
    d ∈ dep ∨ d ∈ createdSteps.map (fun st => st.id) := by
  unfold depStageFallbackStep at h
  split at h
  · split at h
    · next last hg =>
        rcases mem_insertUnique h with h' | rfl
        · exact Or.inl h'
        · exact Or.inr (List.mem_map_of_mem _ (mem_of_getLast? hg))
    · exact Or.inl h
  · exact Or.inl h

theorem depStageMatched_sub {tree : ProofTree} {vars dep : List String}
    {d : String} (h : d ∈ depStageMatched tree vars dep) :
    d ∈ dep ∨ ∃ a ∈ tree.assumptions, d = a.id :=
  asm_fold_sub _ h

theorem depStageFallbackAsm_sub {tree : ProofTree} {vars dep : List String}
    {d : String} (h : d ∈ depStageFallbackAsm tree vars dep) :
    d ∈ dep ∨ ∃ a ∈ tree.assumptions, d = a.id := by
  unfold depStageFallbackAsm at h
  split at h
  · split at h
    · split at h
      · next a ha =>
          rcases mem_insertUnique h with h' | rfl
          · exact depStageMatched_sub h'
          · exact Or.inr ⟨a, mem_of_head? ha, rfl⟩
      · exact depStageMatched_sub h
    · exact depStageMatched_sub h
  · exact Or.inl h

/-- Any dependency inferred for a generic step references an existing
assumption or an already-created step. -/
theorem inferDependencies_sub (s : Sentence) (tree : ProofTree)
    (createdSteps : List Step) (scope : Scope) (entities : List Entity)
    (hscope : ∀ p ∈ scope, ∀ i ∈ p.2,
      i ∈ asmIds tree ∨ i ∈ createdSteps.map (fun st => st.id)) :
    ∀ d ∈ inferDependencies s tree createdSteps scope entities,
      d ∈ asmIds tree ∨ d ∈ createdSteps.map (fun st => st.id) := by
  intro d hd
  simp only [inferDependencies] at hd
  rcases depStageFallbackAsm_sub hd with hd | ⟨a, ha, rfl⟩
  · rcases depStageFallbackStep_sub hd with hd | hstep
    · rcases depStageEntities_sub hd with hd | ⟨a, ha, rfl⟩
      · rcases depStageScope_sub hd with hd | ⟨p, hp, hi⟩
        · rcases depStageRef_sub hd with hd | hstep
          · rcases depStageRef_sub hd with hd | hstep
            · cases hd
            · exact Or.inr hstep
          · exact Or.inr hstep
        · exact hscope p hp d hi
      · exact Or.inl (List.mem_map_of_mem _ ha)
    · exact Or.inr hstep
  · exact Or.inl (List.mem_map_of_mem _ ha)

/-! ### Scope-registration membership lemmas -/

theorem scopeAppendId_sub {sc : Scope} {v aid : String} :
    ∀ p ∈ scopeAppendId sc v aid, ∀ i ∈ p.2,
      (∃ p0 ∈ sc, i ∈ p0.2) ∨ i = aid := by
  intro p hp i hi
  unfold scopeAppendId at hp
  split at hp
  · rcases List.mem_map.mp hp with ⟨p0, hp0, rfl⟩
    revert hi
    split
    · intro hi
      rcases List.mem_append.mp hi with h' | h'
      · exact Or.inl ⟨p0, hp0, h'⟩
      · exact Or.inr (List.mem_singleton.mp h')
    · intro hi; exact Or.inl ⟨p0, hp0, hi⟩
  · rcases List.mem_append.mp hp with h' | h'
    · exact Or.inl ⟨p, h', hi⟩
    · rcases List.mem_singleton.mp h' with rfl
      simp only [List.mem_singleton] at hi
      exact Or.inr hi

theorem scopeSetIfAbsent_sub {sc : Scope} {v sid : String} :
    ∀ p ∈ scopeSetIfAbsent sc v sid, ∀ i ∈ p.2,
      (∃ p0 ∈ sc, i ∈ p0.2) ∨ i = sid := by
  intro p hp i hi
  unfold scopeSetIfAbsent at hp
  split at hp
  · exact Or.inl ⟨p, hp, hi⟩
  · rcases List.mem_append.mp hp with h' | h'
    · exact Or.inl ⟨p, h', hi⟩
    · rcases List.mem_singleton.mp h' with rfl
      simp only [List.mem_singleton] at hi
      exact Or.inr hi

theorem scope_fold_sub {α : Type} (g : Scope → α → Scope) (newId : String)
    (hg : ∀ sc a, ∀ p ∈ g sc a, ∀ i ∈ p.2, (∃ p0 ∈ sc, i ∈ p0.2) ∨ i = newId) :
    ∀ (l : List α) (sc : Scope), ∀ p ∈ l.foldl g sc, ∀ i ∈ p.2,
      (∃ p0 ∈ sc, i ∈ p0.2) ∨ i = newId := by
  intro l
  induction l with
  | nil => intro sc p hp i hi; exact Or.inl ⟨p, hp, hi⟩
  | cons a l ih =>
      intro sc p hp i hi
      rcases ih (g sc a) p hp i hi with ⟨p0, hp0, hi0⟩ | h'
      · exact hg sc a p0 hp0 i hi0
      · exact Or.inr h'

/-! ### Invariant preservation by the handlers -/

theorem mem_stepIds_append {t : ProofTree} {step : Step} {x : String}
    (h : x ∈ stepIds t) :
    x ∈ (t.steps ++ [step]).map (fun s => s.id) := by
  rcases List.mem_map.mp h with ⟨s0, hs0, rfl⟩
  exact List.mem_map_of_mem _ (List.mem_append_left _ hs0)

theorem BInv_addStep {st : BState} (h : BInv st) (step : Step) (k : Nat)
    (md : Metadata) (sc : Scope) (cst : List String)
    (hid : step.id.data.head? = some 's')
    (hdeps : ∀ d ∈ step.dependsOn, d ∈ asmIds st.tree ∨ d ∈ stepIds st.tree)
    (hsc : ∀ p ∈ sc, ∀ i ∈ p.2,
      (i ∈ asmIds st.tree ∨ i ∈ stepIds st.tree) ∨ i = step.id) :
    BInv ⟨⟨st.tree.assumptions, st.tree.steps ++ [step], st.tree.goal,
           st.tree.entities, md⟩, k, st.createdSteps ++ [step], sc, cst⟩ := by
  refine ⟨?_, ?_, ?_, ?_, ?_, ?_⟩
  · show st.createdSteps ++ [step] = st.tree.steps ++ [step]
    rw [h.createdEq]
  · exact h.asmHead
  · intro s hs
    rcases List.mem_append.mp hs with h' | h'
    · exact h.stepHead s h'
    · rcases List.mem_singleton.mp h' with rfl
      exact hid
  · intro p hp i hi
    rcases hsc p hp i hi with h' | rfl
    · rcases h' with h' | h'
      · exact Or.inl h'
      · exact Or.inr (mem_stepIds_append h')
    · exact Or.inr (List.mem_map_of_mem _
        (List.mem_append_right _ (List.mem_singleton.mpr rfl)))
  · refine depsOkAux_append h.depsOk ?_
    intro d hd
    rcases hdeps d hd with h' | h'
    · exact Or.inl h'
    · refine Or.inr ?_
      rw [List.nil_append]
      exact h'
  · intro g hg
    rcases h.goalOk g hg with ⟨hg1, hg2⟩
    refine ⟨hg1, ?_⟩
    intro d hd
    rcases hg2 d hd with h' | h'
    · exact Or.inl h'
    · exact Or.inr (mem_stepIds_append h')

theorem BInv_assumption {st : BState} (h : BInv st) (s : Sentence) :
    BInv { st with
            tree := (handleAssumption s st.tree st.variableScope).1,
            variableScope := (handleAssumption s st.tree st.variableScope).2 } := by
  simp only [handleAssumption]
  refine ⟨?_, ?_, ?_, ?_, ?_, ?_⟩
  · exact h.createdEq
  · intro a ha
    rcases List.mem_append.mp ha with h' | h'
    · exact h.asmHead a h'
    · rcases List.mem_singleton.mp h' with rfl
      exact data_head_a _
  · exact h.stepHead
  · intro p hp i hi
    rcases scope_fold_sub _ _ (fun sc v => scopeAppendId_sub) _ _ p hp i hi with
      ⟨p0, hp0, hi0⟩ | rfl
    · rcases h.scopeOk p0 hp0 i hi0 with h' | h'
      · refine Or.inl ?_
        rcases List.mem_map.mp h' with ⟨a0, ha0, rfl⟩
        exact List.mem_map_of_mem _ (List.mem_append_left _ ha0)
      · exact Or.inr h'
    · refine Or.inl ?_
      exact List.mem_map_of_mem _
        (List.mem_append_right _ (List.mem_singleton.mpr rfl))
  · refine depsOkAux_mono ?_ h.depsOk
    intro x hx
    rcases List.mem_map.mp hx with ⟨a0, ha0, rfl⟩
    exact List.mem_map_of_mem _ (List.mem_append_left _ ha0)
  · intro g hg
    rcases h.goalOk g hg with ⟨hg1, hg2⟩
    refine ⟨hg1, ?_⟩
    intro d hd
    rcases hg2 d hd with h' | h'
    · refine Or.inl ?_
      rcases List.mem_map.mp h' with ⟨a0, ha0, rfl⟩
      exact List.mem_map_of_mem _ (List.mem_append_left _ ha0)
    · exact Or.inr h'

theorem BInv_conclusion {st : BState} (h : BInv st) (s : Sentence) :
    BInv { st with tree := handleConclusion s st.tree st.createdSteps } := by
  simp only [handleConclusion]
  refine ⟨h.createdEq, h.asmHead, h.stepHead, h.scopeOk, h.depsOk, ?_⟩
  intro g hg
  have h2 : some _ = some g := hg
  cases h2
  refine ⟨rfl, ?_⟩
  intro d hd
  have hd' := mem_dedupFirst hd
  revert hd'
  split
  · intro hd'
    exact Or.inl hd'
  · intro hd'
    rw [h.createdEq] at hd'
    exact Or.inr hd'

theorem BInv_induction {st : BState} (h : BInv st) (s : Sentence) (k : Nat) :
    BInv { st with
            tree := (handleInduction s st.tree st.createdSteps st.variableScope k).1,
            createdSteps := (handleInduction s st.tree st.createdSteps st.variableScope k).2,
            stepId := k } := by
  simp only [handleInduction]
  refine BInv_addStep h _ k _ _ _ (data_head_s _) ?_ ?_
  · intro d hd
    have hd' := mem_dedupFirst hd
    revert hd'
    split
    · next last hg =>
        intro hd'
        rcases List.mem_append.mp hd' with h' | h'
        · revert h'
          split
          · split
            · next ids hids =>
                intro h'
                rcases scopeFind_mem hids with ⟨p, hp, rfl⟩
                exact h.scopeOk p hp d h'
            · intro h'; cases h'
          · intro h'; cases h'
        · rcases List.mem_singleton.mp h' with rfl
          have hm : last ∈ st.tree.steps := h.createdEq ▸ mem_of_getLast? hg
          exact Or.inr (List.mem_map_of_mem _ hm)
    · intro hd'
      revert hd'
      split
      · split
        · next ids hids =>
            intro h'
            rcases scopeFind_mem hids with ⟨p, hp, rfl⟩
            exact h.scopeOk p hp d h'
        · intro h'; cases h'
      · intro h'; cases h'
  · intro p hp i hi
    exact Or.inl (h.scopeOk p hp i hi)

theorem BInv_contradiction {st : BState} (h : BInv st) (s : Sentence) (k : Nat) :
    BInv { st with
            tree := (handleContradiction s st.tree st.createdSteps k).1,
            createdSteps := (handleContradiction s st.tree st.createdSteps k).2,
            stepId := k } := by
  simp only [handleContradiction]
  refine BInv_addStep h _ k _ _ _ (data_head_s _) ?_ ?_
  · intro d hd
    rcases List.mem_map.mp hd with ⟨s0, hs0, rfl⟩
    have hm : s0 ∈ st.tree.steps :=
      h.createdEq ▸ List.mem_of_mem_drop hs0
    exact Or.inr (List.mem_map_of_mem _ hm)
  · intro p hp i hi
    exact Or.inl (h.scopeOk p hp i hi)

theorem lastDeps_sub {st : BState} (h : BInv st) {d : String}
    (hd : d ∈ (match st.createdSteps.getLast? with
      | some last => [last.id]
      | none => ([] : List String))) :
    d ∈ asmIds st.tree ∨ d ∈ stepIds st.tree := by
  revert hd
  split
  · next last hg =>
      intro hd
      rcases List.mem_singleton.mp hd with rfl
      have hm : last ∈ st.tree.steps := h.createdEq ▸ mem_of_getLast? hg
      exact Or.inr (List.mem_map_of_mem _ hm)
  · intro hd; cases hd

theorem BInv_case {st : BState} (h : BInv st) (s : Sentence) (k : Nat) :
    BInv { st with
            tree := (handleCase s st.tree st.createdSteps st.caseStack k).1,
            createdSteps := (handleCase s st.tree st.createdSteps st.caseStack k).2.1,
            caseStack := (handleCase s st.tree st.createdSteps st.caseStack k).2.2,
            stepId := k } := by
  simp only [handleCase]
  refine BInv_addStep h _ k _ _ _ (data_head_s _) ?_ ?_
  · intro d hd
    exact lastDeps_sub h hd
  · intro p hp i hi
    exact Or.inl (h.scopeOk p hp i hi)

theorem BInv_existential {st : BState} (h : BInv st) (s : Sentence) (k : Nat) :
    BInv { st with
            tree := (handleExistential s st.tree st.createdSteps st.variableScope k).1,
            createdSteps := (handleExistential s st.tree st.createdSteps st.variableScope k).2.1,
            variableScope := (handleExistential s st.tree st.createdSteps st.variableScope k).2.2,
            stepId := k } := by
  simp only [handleExistential]
  refine BInv_addStep h _ k _ _ _ (data_head_s _) ?_ ?_
  · intro d hd
    exact lastDeps_sub h hd
  · intro p hp i hi
    rcases scope_fold_sub _ _ (fun sc v => scopeSetIfAbsent_sub) _ _ p hp i hi with
      ⟨p0, hp0, hi0⟩ | rfl
    · exact Or.inl (h.scopeOk p0 hp0 i hi0)
    · exact Or.inr rfl

theorem BInv_universal {st : BState} (h : BInv st) (s : Sentence) (k : Nat) :
    BInv { st with
            tree := (handleUniversal s st.tree st.createdSteps k).1,
            createdSteps := (handleUniversal s st.tree st.createdSteps k).2,
            stepId := k } := by
  simp only [handleUniversal]
  refine BInv_addStep h _ k _ _ _ (data_head_s _) ?_ ?_
  · intro d hd
    exact lastDeps_sub h hd
  · intro p hp i hi
    exact Or.inl (h.scopeOk p hp i hi)

theorem BInv_handleStep {st : BState} (h : BInv st) (s : Sentence)
    (entities : List Entity) (k : Nat) :
    BInv { st with
            tree := (handleStep s st.tree st.createdSteps st.variableScope entities k).1,
            createdSteps := (handleStep s st.tree st.createdSteps st.variableScope entities k).2,
            stepId := k } := by
  simp only [handleStep]
  refine BInv_addStep h _ k _ _ _ (data_head_s _) ?_ ?_
  · intro d hd
    have := inferDependencies_sub s st.tree st.createdSteps st.variableScope entities
      (fun p hp i hi => by
        rcases h.scopeOk p hp i hi with h' | h'
        · exact Or.inl h'
        · refine Or.inr ?_
          rw [h.createdEq]
          exact h') d hd
    rcases this with h' | h'
    · exact Or.inl h'
    · refine Or.inr ?_
      show d ∈ st.tree.steps.map (fun s => s.id)
      rw [← h.createdEq]
      exact h'
  · intro p hp i hi
    exact Or.inl (h.scopeOk p hp i hi)

theorem BInv_setTree0 {st : BState} (h : BInv st) (s : Sentence) :
    BInv { st with tree :=
      if s.type == "" then st.tree
      else { st.tree with metadata := { st.tree.metadata with
        proofTechniques := insertUnique st.tree.metadata.proofTechniques s.type } } } := by
  split
  · exact h
  · exact ⟨h.createdEq, h.asmHead, h.stepHead, h.scopeOk, h.depsOk, h.goalOk⟩

theorem dispatch_BInv (e : List Entity) {st : BState} (h : BInv st)
    (s : Sentence) : BInv (dispatch e st s) := by
  unfold dispatch
  split
  · exact BInv_assumption h s
  · exact BInv_conclusion h s
  · exact BInv_induction h s (st.stepId + 1)
  · exact BInv_contradiction h s (st.stepId + 1)
  · exact BInv_case h s (st.stepId + 1)
  · exact BInv_existential h s (st.stepId + 1)
  · exact BInv_universal h s (st.stepId + 1)
  · exact BInv_handleStep h s e (st.stepId + 1)

theorem processSentence_BInv (e : List Entity) {st : BState} (h : BInv st)
    (s : Sentence) : BInv (processSentence e st s) := by
  unfold processSentence
  split
  · exact h
  · exact dispatch_BInv e (BInv_setTree0 h s) s

theorem buildState_BInv (sentences : List Sentence) (entities : List Entity) :
    BInv (buildState sentences entities) := by
  unfold buildState
  generalize hinit : initState entities = st0
  have h0 : BInv st0 := by
    subst hinit
    refine ⟨rfl, ?_, ?_, ?_, trivial, ?_⟩
    · intro a ha; cases ha
    · intro s hs; cases hs
    · intro p hp; cases hp
    · intro g hg; cases hg
  clear hinit
  induction sentences generalizing st0 with
  | nil => exact h0
  | cons s rest ih => exact ih _ (processSentence_BInv entities h0 s)

/-! ### Ranking the dependency graph -/

/-- Positional membership: every list member sits at some index. -/
theorem mem_get?_of_mem {α : Type} {l : List α} {a : α} (h : a ∈ l) :
    ∃ j, l.get? j = some a := by
  induction l with
  | nil => cases h
  | cons x xs ih =>
      rcases List.mem_cons.mp h with rfl | h'
      · exact ⟨0, rfl⟩
      · rcases ih h' with ⟨j, hj⟩
        exact ⟨j + 1, hj⟩

/-- A member of `l.take i` sits at an index below `i` in `l`. -/
theorem mem_take_get? {α : Type} {l : List α} {i : Nat} {a : α}
    (h : a ∈ l.take i) : ∃ j, j < i ∧ l.get? j = some a := by
  induction l generalizing i with
  | nil => rw [List.take_nil] at h; cases h
  | cons x xs ih =>
      cases i with
      | zero => cases h
      | succ i =>
          rcases List.mem_cons.mp h with rfl | h'
          · exact ⟨0, Nat.succ_pos _, rfl⟩
          · rcases ih h' with ⟨j, hj1, hj2⟩
            exact ⟨j + 1, Nat.succ_lt_succ hj1, hj2⟩

/-- Index of the first element satisfying `p` (the position `find?` hits). -/
def firstIdx {α : Type} (p : α → Bool) : List α → Option Nat
  | [] => none
  | a :: l => if p a then some 0 else (firstIdx p l).map (· + 1)

theorem firstIdx_of_find? {α : Type} {p : α → Bool} {l : List α} {a : α}
    (h : l.find? p = some a) :
    ∃ i, firstIdx p l = some i ∧ l.get? i = some a := by
  induction l with
  | nil => cases h
  | cons x xs ih =>
      cases hp : p x with
      | true =>
          rw [List.find?_cons_of_pos _ hp, Option.some.injEq] at h
          subst h
          exact ⟨0, by simp [firstIdx, hp], rfl⟩
      | false =>
          rw [List.find?_cons_of_neg _ (by simp [hp])] at h
          rcases ih h with ⟨i, h1, h2⟩
          refine ⟨i + 1, ?_, h2⟩
          simp [firstIdx, hp, h1]

theorem firstIdx_min {α : Type} (p : α → Bool) {l : List α} {a : α} {j : Nat}
    (hg : l.get? j = some a) (hp : p a = true) :
    ∃ i, firstIdx p l = some i ∧ i ≤ j := by
  induction l generalizing j with
  | nil => cases j <;> cases hg
  | cons x xs ih =>
      cases hpx : p x with
      | true => exact ⟨0, by simp [firstIdx, hpx], Nat.zero_le _⟩
      | false =>
          cases j with
          | zero =>
              have hxa : x = a := by
                have h2 : some x = some a := hg
                cases h2; rfl
              rw [hxa] at hpx
              rw [hp] at hpx
              cases hpx
          | succ j =>
              rcases ih hg with ⟨i, h1, h2⟩
              refine ⟨i + 1, ?_, Nat.succ_le_succ h2⟩
              simp [firstIdx, hpx, h1]

theorem firstIdx_lt_length {α : Type} {p : α → Bool} {l : List α} {i : Nat}
    (h : firstIdx p l = some i) : i < l.length := by
  induction l generalizing i with
  | nil => cases h
  | cons x xs ih =>
      cases hpx : p x with
      | true =>
          rw [show firstIdx p (x :: xs) = some 0 by simp [firstIdx, hpx]] at h
          have h2 : (0 : Nat) = i := by
            have := h
            rw [Option.some.injEq] at this
            exact this
          subst h2
          exact Nat.succ_pos _
      | false =>
          rw [show firstIdx p (x :: xs) = (firstIdx p xs).map (· + 1) by
            simp [firstIdx, hpx]] at h
          cases hf : firstIdx p xs with
          | none => rw [hf] at h; cases h
          | some i0 =>
              rw [hf] at h
              have h2 : i0 + 1 = i := by simpa using h
              subst h2
              exact Nat.succ_lt_succ (ih hf)

theorem firstIdx_none_of_find?_none {α : Type} {p : α → Bool} {l : List α}
    (h : l.find? p = none) : firstIdx p l = none := by
  induction l with
  | nil => rfl
  | cons x xs ih =>
      cases hpx : p x with
      | true => rw [List.find?_cons_of_pos _ hpx] at h; cases h
      | false =>
          rw [List.find?_cons_of_neg _ (by simp [hpx])] at h
          simp [firstIdx, hpx, ih h]

theorem find?_isSome_of_mem {α : Type} (p : α → Bool) {l : List α} {a : α}
    (ha : a ∈ l) (hp : p a = true) : (l.find? p).isSome = true := by
  induction l with
  | nil => cases ha
  | cons x xs ih =>
      cases hpx : p x with
      | true => rw [List.find?_cons_of_pos _ hpx]; rfl
      | false =>
          rw [List.find?_cons_of_neg _ (by simp [hpx])]
          rcases List.mem_cons.mp ha with rfl | h'
          · rw [hp] at hpx; cases hpx
          · exact ih h'

/-- Rank of a node id in the order `findNode` resolves it: assumptions
first (rank 0), then each step at its first position (rank `i + 1`), then
the goal and unknown ids (rank `steps.length + 1`).  Every `dependsOn`
edge of a tree built by the builder strictly decreases this rank. -/
def idRank (t : ProofTree) (x : String) : Nat :=
  if (t.assumptions.find? (fun a => a.id == x)).isSome then 0
  else
    match firstIdx (fun s : Step => s.id == x) t.steps with
    | some i => i + 1
    | none => t.steps.length + 1

/-- The dependency-graph edge relation `validateTree` walks: `x` resolves
to a node whose `dependsOn` (empty for assumptions) contains `y`. -/
def depEdge (t : ProofTree) (x y : String) : Prop :=
  ∃ n, findNode t x = some n ∧ y ∈ n.deps

/-- The tree-level part of the builder invariant. -/
structure TInv (t : ProofTree) : Prop where
  asmHead : ∀ a ∈ t.assumptions, a.id.data.head? = some 'a'
  stepHead : ∀ s ∈ t.steps, s.id.data.head? = some 's'
  depsOk : depsOkAux (asmIds t) [] t.steps
  goalOk : ∀ g, t.goal = some g →
    g.id = "goal" ∧ ∀ d ∈ g.dependsOn, d ∈ asmIds t ∨ d ∈ stepIds t

theorem TInv_of_BInv {st : BState} (h : BInv st) : TInv st.tree :=
  ⟨h.asmHead, h.stepHead, h.depsOk, h.goalOk⟩

theorem TInv_build (sentences : List Sentence) (entities : List Entity) :
    TInv (buildProofTreeRaw sentences entities) :=
  TInv_of_BInv (buildState_BInv sentences entities)

/-- Positional reading of `depsOkAux`: the step at index `i` only depends
on `A`, the accumulated prefix `P`, or ids of steps before index `i`. -/
theorem depsOkAux_get {A : List String} {P : List String} {l : List Step}
    (h : depsOkAux A P l) : ∀ i s, l.get? i = some s → ∀ d ∈ s.dependsOn,
      d ∈ A ∨ d ∈ P ++ (l.take i).map (fun st => st.id) := by
  induction l generalizing P with
  | nil => intro i s hi; cases i <;> cases hi
  | cons s0 rest ih =>
      intro i s hi d hd
      rcases h with ⟨h1, h2⟩
      cases i with
      | zero =>
          have hs : s0 = s := by
            have h2' : some s0 = some s := hi
            cases h2'; rfl
          subst hs
          rcases h1 d hd with h' | h'
          · exact Or.inl h'
          · refine Or.inr ?_
            simpa using h'
      | succ i =>
          rcases ih h2 i s hi d hd with h' | h'
          · exact Or.inl h'
          · refine Or.inr ?_
            simp only [List.take_succ_cons, List.map_cons]
            simpa [List.append_assoc] using h'

theorem idRank_asm {t : ProofTree} {d : String} (h : d ∈ asmIds t) :
    idRank t d = 0 := by
  rcases List.mem_map.mp h with ⟨a, ha, rfl⟩
  unfold idRank
  rw [if_pos (find?_isSome_of_mem (fun x : Assumption => x.id == a.id) ha
    (beq_self_eq_true _))]

theorem idRank_le {t : ProofTree} (d : String) :
    idRank t d ≤ t.steps.length + 1 := by
  unfold idRank
  split
  · exact Nat.zero_le _
  · split
    · next i hfi => exact Nat.succ_le_succ (Nat.le_of_lt (firstIdx_lt_length hfi))
    · exact Nat.le_refl _

theorem idRank_lt_of_mem_steps {t : ProofTree} {d : String}
    (h : d ∈ stepIds t) : idRank t d < t.steps.length + 1 := by
  unfold idRank
  split
  · exact Nat.succ_pos _
  · rcases List.mem_map.mp h with ⟨s, hs, rfl⟩
    rcases mem_get?_of_mem hs with ⟨j, hj⟩
    rcases firstIdx_min (fun x : Step => x.id == s.id) hj (beq_self_eq_true _) with
      ⟨i, hfi, _⟩
    rw [hfi]
    exact Nat.succ_lt_succ (firstIdx_lt_length hfi)

theorem idRank_lt_of_take {t : ProofTree} {d : String} {i : Nat}
    (h : d ∈ (t.steps.take i).map (fun st => st.id)) : idRank t d < i + 1 := by
  unfold idRank
  split
  · exact Nat.succ_pos _
  · rcases List.mem_map.mp h with ⟨s, hs, rfl⟩
    rcases mem_take_get? hs with ⟨j, hji, hj⟩
    rcases firstIdx_min (fun x : Step => x.id == s.id) hj (beq_self_eq_true _) with
      ⟨i', hfi, hle⟩
    rw [hfi]
    exact Nat.succ_lt_succ (Nat.lt_of_le_of_lt hle hji)

/-- Under the builder invariant every dependency edge strictly decreases
`idRank`: steps point at assumptions or earlier steps, the goal points at
assumptions or steps, and assumptions have no outgoing edges. -/
theorem idRank_lt_of_depEdge {t : ProofTree} (h : TInv t) {x y : String}
    (he : depEdge t x y) : idRank t y < idRank t x := by
  rcases he with ⟨n, hfind, hy⟩
  unfold findNode at hfind
  cases hA : t.assumptions.find? (fun a => a.id == x) with
  | some a =>
      rw [hA] at hfind
      have h2 : some (VNode.asm a) = some n := hfind
      cases h2
      cases hy
  | none =>
      rw [hA] at hfind
      cases hS : t.steps.find? (fun s => s.id == x) with
      | some s =>
          rw [hS] at hfind
          have h2 : some (VNode.step s) = some n := hfind
          cases h2
          obtain ⟨i, hfi, hget⟩ := firstIdx_of_find? hS
          have hrx : idRank t x = i + 1 := by
            unfold idRank
            rw [hA]
            simp only [Option.isSome_none, Bool.false_eq_true, if_false]
            rw [hfi]
          rw [hrx]
          have hd := depsOkAux_get h.depsOk i s hget y hy
          rcases hd with h' | h'
          · rw [idRank_asm h']
            exact Nat.succ_pos _
          · rw [List.nil_append] at h'
            exact idRank_lt_of_take h'
      | none =>
          rw [hS] at hfind
          cases hG : t.goal with
          | none => rw [hG] at hfind; cases hfind
          | some g =>
              rw [hG] at hfind
              have hfind' : (if (g.id == x) = true then some (VNode.goal g)
                  else none) = some n := hfind
              by_cases hgx : (g.id == x) = true
              · rw [if_pos hgx] at hfind'
                have h2 : some (VNode.goal g) = some n := hfind'
                cases h2
                obtain ⟨hgid, hdeps⟩ := h.goalOk g hG
                have hrx : idRank t x = t.steps.length + 1 := by
                  unfold idRank
                  rw [hA]
                  simp only [Option.isSome_none, Bool.false_eq_true, if_false]
                  rw [firstIdx_none_of_find?_none hS]
                rw [hrx]
                rcases hdeps y hy with h' | h'
                · rw [idRank_asm h']
                  exact Nat.succ_pos _
                · exact idRank_lt_of_mem_steps h'
              · rw [if_neg hgx] at hfind'
                cases hfind'

/-- A relation that strictly decreases a measure admits no nonempty path
from a node to itself. -/
theorem no_transGen_self {t : ProofTree} (h : TInv t) (x : String) :
    ¬ Relation.TransGen (depEdge t) x x := by
  have hlt : ∀ a b, Relation.TransGen (depEdge t) a b → idRank t b < idRank t a := by
    intro a b hab
    induction hab with
    | single h1 => exact idRank_lt_of_depEdge h h1
    | tail _ h2 ih => exact Nat.lt_trans (idRank_lt_of_depEdge h h2) ih
  intro hxx
  exact absurd (hlt x x hxx) (Nat.lt_irrefl _)

theorem mem_of_contains_eq_true {l : List String} {a : String}
    (h : l.contains a = true) : a ∈ l :=
  List.mem_of_elem_eq_true h

/-- Under the builder invariant the DFS never reports a cycle: ranks
strictly decrease along edges, every id on the recursion stack outranks the
current id (so the stack-hit branch is unreachable), and each call returns
with the recursion stack exactly as it received it. -/
theorem hasCycleAux_false {t : ProofTree} (h : TInv t) :
    ∀ fuel id vis stk, idRank t id < fuel →
      (∀ y ∈ stk, idRank t id < idRank t y) →
      ∃ vis', hasCycleAux t fuel id (vis, stk) = (false, (vis', stk)) := by
  intro fuel
  induction fuel with
  | zero =>
      intro id vis stk hfuel _
      exact absurd hfuel (Nat.not_lt_zero _)
  | succ fuel ih =>
      intro id vis stk hfuel hstk
      have hns : ¬(stk.contains id = true) := by
        intro hc
        exact absurd (hstk id (mem_of_contains_eq_true hc)) (Nat.lt_irrefl _)
      simp only [hasCycleAux]
      rw [if_neg hns]
      by_cases hv : vis.contains id = true
      · rw [if_pos hv]
        exact ⟨vis, rfl⟩
      · rw [if_neg hv]
        cases hfn : findNode t id with
        | none =>
            refine ⟨id :: vis, ?_⟩
            show (false, (id :: vis, (id :: stk).erase id)) = (false, (id :: vis, stk))
            rw [List.erase_cons_head]
        | some n =>
            have hdeps : ∀ d ∈ n.deps, idRank t d < idRank t id := fun d hd =>
              idRank_lt_of_depEdge h ⟨n, hfn, hd⟩
            have hfold : ∀ ds : List String,
                (∀ d ∈ ds, idRank t d < idRank t id) → ∀ vis1,
                ∃ vis2, ds.foldl
                  (fun acc d => if acc.1 then acc else hasCycleAux t fuel d acc.2)
                  (false, (vis1, id :: stk)) = (false, (vis2, id :: stk)) := by
              intro ds
              induction ds with
              | nil =>
                  intro _ vis1
                  exact ⟨vis1, rfl⟩
              | cons d ds ihd =>
                  intro hds vis1
                  have hrd : idRank t d < fuel :=
                    Nat.lt_of_lt_of_le (hds d (List.mem_cons_self _ _))
                      (Nat.le_of_lt_succ hfuel)
                  have hstk' : ∀ y ∈ id :: stk, idRank t d < idRank t y := by
                    intro y hy
                    rcases List.mem_cons.mp hy with rfl | hy'
                    · exact hds d (List.mem_cons_self _ _)
                    · exact Nat.lt_trans (hds d (List.mem_cons_self _ _)) (hstk y hy')
                  rcases ih d vis1 (id :: stk) hrd hstk' with ⟨vis2, he⟩
                  rcases ihd (fun d' hd' => hds d' (List.mem_cons_of_mem _ hd')) vis2
                    with ⟨vis3, he2⟩
                  refine ⟨vis3, ?_⟩
                  have hred : List.foldl
                      (fun acc d => if acc.1 then acc else hasCycleAux t fuel d acc.2)
                      ((false : Bool), (vis1, id :: stk)) (d :: ds) = List.foldl
                      (fun acc d => if acc.1 then acc else hasCycleAux t fuel d acc.2)
                      (hasCycleAux t fuel d (vis1, id :: stk)) ds := rfl
                  rw [hred, he, he2]
            rcases hfold n.deps hdeps (id :: vis) with ⟨vis2, hfe⟩
            refine ⟨vis2, ?_⟩
            show (if (List.foldl
                    (fun acc d => if acc.1 then acc else hasCycleAux t fuel d acc.2)
                    ((false : Bool), (id :: vis, id :: stk)) n.deps).1 = true
                then List.foldl
                    (fun acc d => if acc.1 then acc else hasCycleAux t fuel d acc.2)
                    ((false : Bool), (id :: vis, id :: stk)) n.deps
                else ((List.foldl
                    (fun acc d => if acc.1 then acc else hasCycleAux t fuel d acc.2)
                    ((false : Bool), (id :: vis, id :: stk)) n.deps).1,
                  ((List.foldl
                    (fun acc d => if acc.1 then acc else hasCycleAux t fuel d acc.2)
                    ((false : Bool), (id :: vis, id :: stk)) n.deps).2.1,
                  (List.foldl
                    (fun acc d => if acc.1 then acc else hasCycleAux t fuel d acc.2)
                    ((false : Bool), (id :: vis, id :: stk)) n.deps).2.2.erase id)))
              = ((false : Bool), (vis2, stk))
            rw [hfe]
            show (false, (vis2, (id :: stk).erase id)) = (false, (vis2, stk))
            rw [List.erase_cons_head]

/-- Under the builder invariant the repair branch of the validation loop
never fires: each step's DFS returns `false` with an empty recursion stack,
so the tree passes through unchanged. -/
theorem valLoop_noop {t : ProofTree} (h : TInv t) :
    ∀ rem i vis, ∃ vis', valLoop rem i t (vis, []) = (t, (vis', [])) := by
  intro rem
  induction rem with
  | zero =>
      intro i vis
      exact ⟨vis, rfl⟩
  | succ rem ih =>
      intro i vis
      simp only [valLoop]
      cases hg : t.steps.get? i with
      | none => exact ⟨vis, rfl⟩
      | some step =>
          have hfuel : idRank t step.id < dfsFuel t := by
            have h1 : idRank t step.id ≤ t.steps.length + 1 := idRank_le step.id
            unfold dfsFuel
            omega
          rcases hasCycleAux_false h (dfsFuel t) step.id vis [] hfuel
            (by intro y hy; cases hy) with ⟨vis2, hce⟩
          rcases ih (i + 1) vis2 with ⟨vis3, hl⟩
          refine ⟨vis3, ?_⟩
          show valLoop rem (i + 1)
              (if (hasCycleAux t (dfsFuel t) step.id (vis, [])).1 = true
                then { t with steps := t.steps.set i { step with dependsOn := [] } }
                else t)
              (hasCycleAux t (dfsFuel t) step.id (vis, [])).2 = (t, (vis3, []))
          rw [hce]
          show valLoop rem (i + 1) t (vis2, []) = (t, (vis3, []))
          exact hl

/-- Trees satisfying the builder invariant pass validation unchanged. -/
theorem validateTree_noop {t : ProofTree} (h : TInv t) : validateTree t = t := by
  unfold validateTree
  obtain ⟨vis', hv⟩ := valLoop_noop h t.steps.length 0 []
  rw [hv]

/-- The validation pass is the identity on every tree the builder emits. -/
theorem buildProofTree_eq_raw (sentences : List Sentence)
    (entities : List Entity) :
    buildProofTree sentences entities = buildProofTreeRaw sentences entities :=
  validateTree_noop (TInv_build sentences entities)

/-- An id whose first character is not `g` differs from `"goal"`. -/
theorem ne_goal_of_head {d : String} {c : Char} (h : d.data.head? = some c)
    (hc : c ≠ 'g') : d ≠ "goal" := by
  intro he
  subst he
  have h2 : some 'g' = some c := h
  cases h2
  exact hc rfl

/-- C1: for every input sequence of sentences and entities the dependency
graph of the tree returned by `buildProofTree` is acyclic: following
`dependsOn` edges (as `validateTree`'s node resolution walks them) from any
node, in particular any step or the goal, never returns to that node. -/
theorem build_acyclic (sentences : List Sentence) (entities : List Entity)
    (x : String) :
    ¬ Relation.TransGen (depEdge (buildProofTree sentences entities)) x x := by
  rw [buildProofTree_eq_raw]
  exact no_transGen_self (TInv_build sentences entities) x

/-- C10: in every tree returned by `buildProofTree`, each step's
`dependsOn` entries name assumptions or strictly earlier steps (by
position), the goal's entries name assumptions or steps, no dependency ever
names the goal, and consequently `validateTree`'s cycle-repair branch never
executes: validation returns the built tree unchanged. -/
theorem build_deps_earlier (sentences : List Sentence) (entities : List Entity) :
    (∀ i s, (buildProofTree sentences entities).steps.get? i = some s →
      ∀ d ∈ s.dependsOn,
        (d ∈ asmIds (buildProofTree sentences entities) ∨
          d ∈ ((buildProofTree sentences entities).steps.take i).map
            (fun st => st.id)) ∧ d ≠ "goal") ∧
    (∀ g, (buildProofTree sentences entities).goal = some g →
      ∀ d ∈ g.dependsOn,
        (d ∈ asmIds (buildProofTree sentences entities) ∨
          d ∈ stepIds (buildProofTree sentences entities)) ∧ d ≠ "goal") ∧
    validateTree (buildProofTreeRaw sentences entities) =
      buildProofTreeRaw sentences entities := by
  have hT := TInv_build sentences entities
  rw [buildProofTree_eq_raw]
  refine ⟨?_, ?_, validateTree_noop hT⟩
  · intro i s hget d hd
    have h' := depsOkAux_get hT.depsOk i s hget d hd
    rw [List.nil_append] at h'
    refine ⟨h', ?_⟩
    rcases h' with h' | h'
    · rcases List.mem_map.mp h' with ⟨a, ha, rfl⟩
      exact ne_goal_of_head (hT.asmHead a ha) (by decide)
    · rcases List.mem_map.mp h' with ⟨s', hs', rfl⟩
      have hs'' : s' ∈ (buildProofTreeRaw sentences entities).steps :=
        List.mem_of_mem_take hs'
      exact ne_goal_of_head (hT.stepHead s' hs'') (by decide)
  · intro g hg d hd
    obtain ⟨hgid, hdeps⟩ := hT.goalOk g hg
    refine ⟨hdeps d hd, ?_⟩
    rcases hdeps d hd with h' | h'
    · rcases List.mem_map.mp h' with ⟨a, ha, rfl⟩
      exact ne_goal_of_head (hT.asmHead a ha) (by decide)
    · rcases List.mem_map.mp h' with ⟨s', hs', rfl⟩
      exact ne_goal_of_head (hT.stepHead s' hs') (by decide)

end ProofChat
